import Mathlib

/-!
Verification of the MiniGraphDB in-memory graph database (mgdb.py).

The store is shallowly embedded: a Python dict is an insertion-ordered
association list, dict assignment is update-in-place-or-append, and dict
membership is key lookup.  A node is its property dict, whose reserved
key "__rels" holds the relationship dict keyed by (relName, dstNode)
pairs.  Python references to node dicts stored under "__src" and "__dst"
are modelled by the node name (they are never read by any operation).
Raised exceptions are modelled by an error value; every mutating
operation returns the post-state paired with an optional error, and each
raise site in the source occurs before any mutation, so the post-state
on error is the unchanged store.  The traversal loops are modelled with
explicit fuel; the value TravOut.hung marks fuel exhaustion and
TravOut.blocked marks a put on the full bounded queue (queue.Queue and
queue.LifoQueue are created with maxsize 10000 and their put method
blocks forever when the queue is full, the process being
single-threaded).
-/

/-- Ordered association-list lookup: Python dict indexing / membership. -/
def getKey {α β : Type} [DecidableEq α] : List (α × β) → α → Option β
  | [], _ => none
  | (k, v) :: rest, key => if k = key then some v else getKey rest key

/-- Ordered association-list update: Python dict assignment, which keeps
the position of an existing key and appends a new key at the end. -/
def setKey {α β : Type} [DecidableEq α] : List (α × β) → α → β → List (α × β)
  | [], key, val => [(key, val)]
  | (k, v) :: rest, key, val =>
    if k = key then (key, val) :: rest else (k, v) :: setKey rest key val

/-- Python dict membership test. -/
def hasKey {α β : Type} [DecidableEq α] (m : List (α × β)) (key : α) : Bool :=
  (getKey m key).isSome

/-- Composite relationship key: (relationship name, destination node name). -/
abbrev RelKey := String × String

/-- Values stored in the heterogeneous Python dicts of mgdb.py: user scalars,
the integer weight, references to node dicts (modelled by the node name),
and the nested relationship dict held under the reserved key "__rels". -/
inductive PVal where
  | str : String → PVal
  | int : Int → PVal
  | nodeRef : String → PVal
  | relDict : List (RelKey × List (String × PVal)) → PVal

/-- A node's property dict (also used for a relationship's property dict). -/
abbrev PropMap := List (String × PVal)

/-- A node's relationship dict, the value of its "__rels" entry. -/
abbrev RelMap := List (RelKey × PropMap)

/-- The store: the nodes dict of MiniGraphDB, node name to node dict. -/
abbrev DB := List (String × PropMap)

/-- Exceptions raised by mgdb.py, one constructor per raise site, plus the
runtime errors Python itself would raise (KeyError, TypeError). -/
inductive Err where
  | nodeAlreadyExists : String → Err
  | mergeNodeNotFound : String → Err
  | noNodeNamed : String → Err
  | relationshipAlreadyExists : String → String → String → Err
  | linkNodesNotFound : String → String → Err
  | relNotFound : String → String → String → Err
  | relNodesNotFound : String → String → Err
  | nodeNotFound : String → Err
  | traverseNodesNotFound : String → String → Err
  | unknownAlgorithm : String → Err
  | keyError : String → Err
  | typeError : Err
deriving DecidableEq, Repr

/-- Reads the "__rels" entry of a node dict.  In well-formed stores it always
holds a relationship dict; a missing key is Python's KeyError and any other
value leads to a Python runtime error when the callers iterate or test
tuple membership on it. -/
def nodeRels (node : PropMap) : Except Err RelMap :=
  match getKey node "__rels" with
  | some (PVal.relDict r) => Except.ok r
  | some _ => Except.error Err.typeError
  | none => Except.error (Err.keyError "__rels")

/-- The Python loop "for p in props: d[p] = props[p]" over an
insertion-ordered dict. -/
def mergeProps (base : PropMap) (props : PropMap) : PropMap :=
  props.foldl (fun m kv => setKey m kv.1 kv.2) base

/-- mergeNodeProperties of mgdb.py: merge props into the node's dict, raising
if the node is absent.  Returns the post-state and the optional error. -/
def mergeNodeProperties (db : DB) (name : String) (props : PropMap) :
    DB × Option Err :=
  match getKey db name with
  | some node => (setKey db name (mergeProps node props), none)
  | none => (db, some (Err.mergeNodeNotFound name))

/-- addNode of mgdb.py: raise if the name exists, else create the node with
an empty "__rels" dict and merge the optional properties ("if props:" is
false for None and for an empty dict). -/
def addNode (db : DB) (name : String) (props : Option PropMap) :
    DB × Option Err :=
  if hasKey db name then (db, some (Err.nodeAlreadyExists name))
  else
    let db2 := setKey db name (setKey [] "__rels" (PVal.relDict []))
    match props with
    | none => (db2, none)
    | some ps => if ps.isEmpty then (db2, none) else mergeNodeProperties db2 name ps

/-- Reserved-marker test of mgdb.py: p[:2] != "__" selects public keys. -/
def isHiddenKey (k : String) : Bool := k.take 2 == "__"

/-- getNodeProps of mgdb.py: the public (non double-underscore) entries of
the node's dict, in insertion order. -/
def getNodeProps (db : DB) (name : String) : Except Err PropMap :=
  match getKey db name with
  | some node => Except.ok (node.filter (fun kv => !(isHiddenKey kv.1)))
  | none => Except.error (Err.noNodeNamed name)

/-- Python equality between a string and a pair: values of distinct types
compare unequal under Python ==, so this is constantly false. -/
def pyEqStrPair (_s : String) (_k : RelKey) : Bool := false

/-- The membership test "name not in self.nodes[srcNode]["__rels"]" of
addRelationship, negated: it compares the bare string name against the
(name, dstNode) tuple keys of the relationship dict, so it never succeeds. -/
def pyStrInRelMap (s : String) (rels : RelMap) : Bool :=
  rels.any (fun kv => pyEqStrPair s kv.1)

/-- mergeRelProperties of mgdb.py: silently does nothing when either endpoint
is absent or the (name, dstNode) relationship does not exist. -/
def mergeRelProperties (db : DB) (name srcNode dstNode : String)
    (props : PropMap) : DB × Option Err :=
  if hasKey db srcNode && hasKey db dstNode then
    match getKey db srcNode with
    | some srcDict =>
      match nodeRels srcDict with
      | Except.error e => (db, some e)
      | Except.ok rels =>
        match getKey rels (name, dstNode) with
        | some rel =>
          (setKey db srcNode
            (setKey srcDict "__rels"
              (PVal.relDict (setKey rels (name, dstNode) (mergeProps rel props)))),
           none)
        | none => (db, none)
    | none => (db, some (Err.keyError srcNode))
  else (db, none)

/-- addRelationship of mgdb.py.  The duplicate check tests the bare string
name against the tuple keys (pyStrInRelMap), the new relationship dict gets
"__src", "__dst", "__weight" in that order, and the optional properties are
then merged ("if props:" is false for None and the empty dict).  The Python
code inserts an empty dict and mutates it through an alias; the final store
equals inserting the finished dict. -/
def addRelationship (db : DB) (name srcNode dstNode : String)
    (props : Option PropMap) (weight : Int) : DB × Option Err :=
  if hasKey db srcNode && hasKey db dstNode then
    match getKey db srcNode with
    | some srcDict =>
      match nodeRels srcDict with
      | Except.error e => (db, some e)
      | Except.ok rels =>
        if pyStrInRelMap name rels then
          (db, some (Err.relationshipAlreadyExists name srcNode dstNode))
        else
          let rel : PropMap :=
            setKey (setKey (setKey [] "__src" (PVal.nodeRef srcNode))
              "__dst" (PVal.nodeRef dstNode)) "__weight" (PVal.int weight)
          let db1 := setKey db srcNode
            (setKey srcDict "__rels" (PVal.relDict (setKey rels (name, dstNode) rel)))
          match props with
          | none => (db1, none)
          | some ps =>
            if ps.isEmpty then (db1, none)
            else mergeRelProperties db1 name srcNode dstNode ps
    | none => (db, some (Err.keyError srcNode))
  else (db, some (Err.linkNodesNotFound srcNode dstNode))

/-- getRelProps of mgdb.py: the public entries of a relationship's dict. -/
def getRelProps (db : DB) (name srcNode dstNode : String) : Except Err PropMap :=
  if hasKey db srcNode && hasKey db dstNode then
    match getKey db srcNode with
    | some srcDict =>
      match nodeRels srcDict with
      | Except.error e => Except.error e
      | Except.ok rels =>
        match getKey rels (name, dstNode) with
        | some rel => Except.ok (rel.filter (fun kv => !(isHiddenKey kv.1)))
        | none => Except.error (Err.relNotFound name srcNode dstNode)
    | none => Except.error (Err.keyError srcNode)
  else Except.error (Err.relNodesNotFound srcNode dstNode)

/-- getRelationships of mgdb.py: the list of (relName, dstNode) keys of the
node's relationship dict, in insertion order. -/
def getRelationships (db : DB) (name : String) : Except Err (List RelKey) :=
  match getKey db name with
  | some node =>
    match nodeRels node with
    | Except.error e => Except.error e
    | Except.ok rels => Except.ok (rels.map (fun kv => kv.1))
  | none => Except.error (Err.nodeNotFound name)

/-- One element of a returned traversal path: either a [src, relName, dst]
hop or the bare string placed in the list by the loop-detection return. -/
inductive PathElem where
  | hop : String → String → String → PathElem
  | msg : String → PathElem
deriving DecidableEq, Repr

/-- The per-node record of the BFS visited dict.  The start node is recorded
without an rname entry. -/
structure VisitInfo where
  distance : Nat
  parent : Option String
  rname : Option String
deriving DecidableEq, Repr

/-- The BFS visited dict. -/
abbrev VisitMap := List (String × VisitInfo)

/-- Outcome of a traversal call: a normal (found, path) return, a raised
exception, a forever-blocking put on the full bounded queue, or exhaustion
of the embedding's fuel. -/
inductive TravOut where
  | ok : Bool → List PathElem → TravOut
  | err : Err → TravOut
  | blocked : TravOut
  | hung : TravOut
deriving DecidableEq, Repr

/-- The maxsize both traversal queues are created with. -/
def queueMax : Nat := 10000

/-- The allowRels filter: None lets every relationship name through. -/
def relAllowed (allowRels : Option (List String)) (rname : String) : Bool :=
  match allowRels with
  | none => true
  | some l => l.contains rname

/-- The parent-pointer walk of _getPath, building the reversed path directly
(the source appends and reverses at the end, producing the same list).
Returns none when the walk would raise a KeyError or fail to terminate;
the fuel used by getPath below suffices for every map produced by BFS. -/
def getPathAux (visited : VisitMap) : Nat → String → List PathElem → Option (List PathElem)
  | 0, _, _ => none
  | fuel+1, cnode, acc =>
    match getKey visited cnode with
    | none => none
    | some info =>
      match info.parent with
      | none => some acc
      | some par =>
        match info.rname with
        | none => none
        | some rn => getPathAux visited fuel par (PathElem.hop par rn cnode :: acc)

/-- _getPath of mgdb.py. -/
def getPath (visited : VisitMap) (endNode : String) : Option (List PathElem) :=
  getPathAux visited visited.length endNode []

/-- Result of scanning one node's relationship list: an early return out of
_traverseBFS, or the updated visited map and queue. -/
inductive ScanOut where
  | ret : TravOut → ScanOut
  | cont : VisitMap → List String → ScanOut

/-- The inner for-loop of _traverseBFS over cnode's relationships: loop
detection fires on any already-visited adjacent, a fresh adjacent is
recorded (and returned if it is endNode, else enqueued — blocking forever
if the queue already holds queueMax entries), and an already-visited
adjacent equal to startNode == endNode closes a self-loop path. -/
def bfsScan (startNode endNode : String) (allowRels : Option (List String))
    (hasloopF : Bool) (cnode : String) :
    List RelKey → VisitMap → List String → ScanOut
  | [], visited, q => ScanOut.cont visited q
  | (rname, adjacent) :: rest, visited, q =>
    if relAllowed allowRels rname then
      if hasloopF && hasKey visited adjacent then
        ScanOut.ret (TravOut.ok true [PathElem.msg ("Path TBD: Found loop around " ++ adjacent)])
      else if !(hasKey visited adjacent) then
        match getKey visited cnode with
        | none => ScanOut.ret (TravOut.err (Err.keyError cnode))
        | some cinfo =>
          let visited' := setKey visited adjacent ⟨cinfo.distance + 1, some cnode, some rname⟩
          if adjacent = endNode then
            match getPath visited' endNode with
            | some p => ScanOut.ret (TravOut.ok true p)
            | none => ScanOut.ret (TravOut.err (Err.keyError endNode))
          else if q.length = queueMax then ScanOut.ret TravOut.blocked
          else bfsScan startNode endNode allowRels hasloopF cnode rest visited' (q ++ [adjacent])
      else if adjacent = startNode && startNode = endNode then
        match getPath visited cnode with
        | some p => ScanOut.ret (TravOut.ok true (p ++ [PathElem.hop cnode rname startNode]))
        | none => ScanOut.ret (TravOut.err (Err.keyError cnode))
      else bfsScan startNode endNode allowRels hasloopF cnode rest visited q
    else bfsScan startNode endNode allowRels hasloopF cnode rest visited q

/-- The while-loop of _traverseBFS: dequeue, scan the node's relationships,
continue until the queue empties. -/
def bfsLoop (db : DB) (startNode endNode : String) (allowRels : Option (List String))
    (hasloopF : Bool) : Nat → List String → VisitMap → TravOut
  | 0, _, _ => TravOut.hung
  | _+1, [], _ => TravOut.ok false []
  | fuel+1, cnode :: qrest, visited =>
    match getRelationships db cnode with
    | Except.error e => TravOut.err e
    | Except.ok rels =>
      match bfsScan startNode endNode allowRels hasloopF cnode rels visited qrest with
      | ScanOut.ret r => r
      | ScanOut.cont visited' q' => bfsLoop db startNode endNode allowRels hasloopF fuel q' visited'

/-- The number of relationship entries in the store; one BFS iteration is
one dequeue, and at most 1 + relCount db nodes are ever enqueued, so the
fuel relCount db + 2 never runs out on a terminating BFS. -/
def relCount (db : DB) : Nat :=
  (db.map (fun kv =>
    match getKey kv.2 "__rels" with
    | some (PVal.relDict r) => r.length
    | _ => 0)).sum

/-- Fuel supplied to the traversal loops. -/
def dbFuel (db : DB) : Nat := relCount db + 2

/-- _traverseBFS of mgdb.py: queue seeded with startNode, startNode visited
at distance 0 with no parent and no rname entry. -/
def traverseBFS (db : DB) (startNode endNode : String)
    (allowRels : Option (List String)) (hasloopF : Bool) : TravOut :=
  bfsLoop db startNode endNode allowRels hasloopF (dbFuel db) [startNode]
    (setKey [] startNode ⟨0, none, none⟩)

/-- The per-node path dict of _traverseDFS, a defaultdict(list): a missing
key reads as the empty list. -/
def pathOf (paths : List (String × List PathElem)) (n : String) : List PathElem :=
  (getKey paths n).getD []

/-- Result of scanning one node's relationship list in DFS. -/
inductive DScanOut where
  | ret : TravOut → DScanOut
  | cont : List String → List (String × List PathElem) → DScanOut

/-- The inner for-loop of _traverseDFS over cnode's relationships: return
when adjacent is endNode and a non-empty path to cnode exists, else push
every unvisited adjacent (blocking forever if the stack already holds
queueMax entries) and record its path. -/
def dfsScan (endNode : String) (allowRels : Option (List String)) (cnode : String)
    (visited : List String) :
    List RelKey → List String → List (String × List PathElem) → DScanOut
  | [], stack, paths => DScanOut.cont stack paths
  | (rname, adjacent) :: rest, stack, paths =>
    if relAllowed allowRels rname then
      if adjacent = endNode && !(pathOf paths cnode).isEmpty then
        DScanOut.ret (TravOut.ok true (pathOf paths cnode ++ [PathElem.hop cnode rname adjacent]))
      else if !(visited.contains adjacent) then
        if stack.length = queueMax then DScanOut.ret TravOut.blocked
        else dfsScan endNode allowRels cnode visited rest (adjacent :: stack)
          (setKey paths adjacent (pathOf paths cnode ++ [PathElem.hop cnode rname adjacent]))
      else dfsScan endNode allowRels cnode visited rest stack paths
    else dfsScan endNode allowRels cnode visited rest stack paths

/-- The while-loop of _traverseDFS: pop cnode, mark it visited only when it
is neither already visited nor still present in the stack (the values
stored in the Python visited dict are never read, so visited is a list of
names), then scan its relationships.  The stack is a LifoQueue: head is
the top. -/
def dfsLoop (db : DB) (startNode endNode : String) (allowRels : Option (List String)) :
    Nat → List String → List String → List (String × List PathElem) → TravOut
  | 0, _, _, _ => TravOut.hung
  | _+1, [], _, _ => TravOut.ok false []
  | fuel+1, cnode :: srest, visited, paths =>
    let visited' :=
      if !(visited.contains cnode) && !(srest.contains cnode) then visited ++ [cnode]
      else visited
    match getRelationships db cnode with
    | Except.error e => TravOut.err e
    | Except.ok rels =>
      match dfsScan endNode allowRels cnode visited' rels srest paths with
      | DScanOut.ret r => r
      | DScanOut.cont stack' paths' =>
        dfsLoop db startNode endNode allowRels fuel stack' visited' paths'

/-- _traverseDFS of mgdb.py: stack seeded with startNode, nothing visited,
empty path dict. -/
def traverseDFS (db : DB) (startNode endNode : String)
    (allowRels : Option (List String)) : TravOut :=
  dfsLoop db startNode endNode allowRels (dbFuel db) [startNode] [] []

/-- traverse of mgdb.py: both nodes must exist, then dispatch on the
algorithm name. -/
def traverse (db : DB) (startNode endNode : String)
    (allowRels : Option (List String)) (algo : String) : TravOut :=
  if hasKey db startNode && hasKey db endNode then
    if algo = "BFS" then traverseBFS db startNode endNode allowRels false
    else if algo = "DFS" then traverseDFS db startNode endNode allowRels
    else TravOut.err (Err.unknownAlgorithm algo)
  else TravOut.err (Err.traverseNodesNotFound startNode endNode)

/-- hasloop of mgdb.py: BFS towards the sentinel "__INFINITY__" with the
loop flag set; the start node's existence is not checked. -/
def hasloop (db : DB) (startNode : String) : TravOut :=
  traverseBFS db startNode "__INFINITY__" none true

/-- List of key components without duplicates, computably. -/
def nodupB {α : Type} [DecidableEq α] : List α → Bool
  | [] => true
  | a :: rest => !(rest.contains a) && nodupB rest

/-- Well-formedness of a store, the data-model invariants of the spec: node
names are unique, every node's "__rels" entry holds a relationship dict
whose keys are unique, and every relationship's destination exists. -/
def wfDB (db : DB) : Bool :=
  nodupB (db.map (fun kv => kv.1)) &&
  db.all (fun kv =>
    match getKey kv.2 "__rels" with
    | some (PVal.relDict rels) =>
      nodupB (rels.map (fun r => r.1)) && rels.all (fun r => hasKey db r.1.2)
    | _ => false)

/-- The relationship list of a node as used by the traversals (empty for a
missing or malformed node; the traversal theorems assume well-formedness,
under which this agrees with getRelationships). -/
def relsOfB (db : DB) (u : String) : List RelKey :=
  match getRelationships db u with
  | Except.ok rels => rels
  | Except.error _ => []

/-- There is a relationship named t from u to v in the store. -/
def edgeB (db : DB) (u t v : String) : Bool :=
  (relsOfB db u).contains (t, v)

/-- A valid path of hops through the store from s to e following only
allowed relationship names. -/
def validPathB (db : DB) (allowRels : Option (List String)) :
    String → String → List PathElem → Bool
  | s, e, [] => s = e
  | s, e, PathElem.hop a t b :: rest =>
    a = s && edgeB db a t b && relAllowed allowRels t && validPathB db allowRels b e rest
  | _, _, PathElem.msg _ :: _ => false

/-- Reachability along allowed relationships. -/
inductive Reach (db : DB) (allowRels : Option (List String)) : String → String → Prop
  | refl (u : String) : Reach db allowRels u u
  | tail {u v w : String} (t : String) (h1 : Reach db allowRels u v)
      (h2 : edgeB db v t w = true) (h3 : relAllowed allowRels t = true) :
      Reach db allowRels u w

/-- Applies a sequence of mutating operations to the empty store, keeping
the post-state of each (this is how the sample scripts build graphs). -/
def buildDB (steps : List (DB → DB × Option Err)) : DB :=
  steps.foldl (fun db f => (f db).1) []

/-- The relationship dict stored on src under the key (name, dst), if any. -/
def relEntry (db : DB) (name src dst : String) : Option PropMap :=
  match getKey db src with
  | some nd =>
    match nodeRels nd with
    | Except.ok rels => getKey rels (name, dst)
    | Except.error _ => none
  | none => none

/-- Both endpoints exist and the (name, dst) relationship exists on src. -/
def relExistsB (db : DB) (name src dst : String) : Bool :=
  hasKey db src && hasKey db dst && (relEntry db name src dst).isSome

/-- The value of the node's reserved "__rels" entry, if any. -/
def relsEntry (db : DB) (n : String) : Option PVal :=
  match getKey db n with
  | some nd => getKey nd "__rels"
  | none => none

/-- The conclusion claimed for hasloop on a cyclic start node: a successful
(true, path) result whose hop elements are all store edges and whose last
element is a closing hop that is a store edge. -/
def hasloopPathConcl (db : DB) (s : String) : Bool :=
  match hasloop db s with
  | TravOut.ok true p =>
    (p.all fun e =>
      match e with
      | PathElem.hop a t b => edgeB db a t b
      | PathElem.msg _ => true) &&
    (match p.getLast? with
     | some (PathElem.hop c t a) => edgeB db c t a
     | _ => false)
  | _ => false

/-- A topological-order certificate: every node of the store occurs in the
order list, the order has no duplicates, and every relationship goes from
an earlier to a strictly later position.  Such a certificate rules out any
directed cycle in the store (topoOrder_no_cycle below). -/
def isTopoOrder (db : DB) (order : List String) : Bool :=
  nodupB order &&
  db.all (fun kv => order.contains kv.1) &&
  db.all (fun kv =>
    (relsOfB db kv.1).all (fun r =>
      order.contains r.2 && decide (order.indexOf kv.1 < order.indexOf r.2)))

/-- Store for C1: nodes A, B and one relationship t from A to B of weight 1. -/
def dbC1 : DB := buildDB [
  fun db => addNode db "A" none,
  fun db => addNode db "B" none,
  fun db => addRelationship db "t" "A" "B" none 1]

/-- Store for C9: A has two relationships to B and B has a self-loop, so a
popped B always has a duplicate of itself left in the stack, is never
marked visited, and keeps re-pushing itself. -/
def dbC9 : DB := buildDB [
  fun db => addNode db "A" none,
  fun db => addNode db "B" none,
  fun db => addRelationship db "x" "A" "B" none 1,
  fun db => addRelationship db "y" "A" "B" none 1,
  fun db => addRelationship db "z" "B" "B" none 1]

/-- Store for C5: like dbC9 but with a path A - D - E to the target E that
is pushed below the two copies of B and therefore never examined. -/
def dbC5 : DB := buildDB [
  fun db => addNode db "A" none,
  fun db => addNode db "B" none,
  fun db => addNode db "D" none,
  fun db => addNode db "E" none,
  fun db => addRelationship db "x" "A" "D" none 1,
  fun db => addRelationship db "y" "A" "B" none 1,
  fun db => addRelationship db "z" "A" "B" none 1,
  fun db => addRelationship db "w" "B" "B" none 1,
  fun db => addRelationship db "u" "D" "E" none 1]

/-- Store for C3: a single node with a self-loop. -/
def dbC3 : DB := buildDB [
  fun db => addNode db "A" none,
  fun db => addRelationship db "t" "A" "A" none 1]

/-- Store for C4: a diamond-shaped DAG, A to B and C, both to D. -/
def dbC4 : DB := buildDB [
  fun db => addNode db "A" none,
  fun db => addNode db "B" none,
  fun db => addNode db "C" none,
  fun db => addNode db "D" none,
  fun db => addRelationship db "t" "A" "B" none 1,
  fun db => addRelationship db "t" "A" "C" none 1,
  fun db => addRelationship db "t" "B" "D" none 1,
  fun db => addRelationship db "t" "C" "D" none 1]

/-- Witness store: one node with one public property. -/
def dbW1 : DB := buildDB [
  fun db => addNode db "A" (some [("color", PVal.str "red")])]

/-- Witness store: two nodes and one relationship. -/
def dbW2 : DB := buildDB [
  fun db => addNode db "A" none,
  fun db => addNode db "B" none,
  fun db => addRelationship db "t" "A" "B" none 1]

/-- Names of the visited map, in insertion (discovery) order. -/
def vkeys (visited : VisitMap) : List String := visited.map (fun kv => kv.1)

/-- Position of the first occurrence of a name in a list. -/
def idxIn : List String → String → Nat
  | [], _ => 0
  | x :: rest, a => if x = a then 0 else idxIn rest a + 1

/-- Discovery index of a node in the visited map. -/
def vidx (visited : VisitMap) (a : String) : Nat := idxIn (vkeys visited) a

/-- All relationship destinations of the store, one per relationship entry. -/
def allDsts (db : DB) : List String :=
  (db.map fun kv =>
    match getKey kv.2 "__rels" with
    | some (PVal.relDict r) => r.map (fun e => e.1.2)
    | _ => []).flatten

/-- Every name BFS from s can ever visit: the start plus all destinations. -/
def bfsUniverse (db : DB) (s : String) : List String := (s :: allDsts db).dedup

/-- How many universe names are not yet visited; the BFS termination
measure is the queue length plus this count. -/
def unvisCount (db : DB) (s : String) (visited : VisitMap) : Nat :=
  ((bfsUniverse db s).filter (fun x => !(hasKey visited x))).length

/-- No relationship of the store targets the sentinel node name that
hasloop uses as its intentionally unreachable endNode. -/
def noRelToSentinel (db : DB) : Bool :=
  db.all (fun kv => (relsOfB db kv.1).all (fun r => r.2 != "__INFINITY__"))

/-- Number of relationship entries from nodes of R that point to v. -/
def inEdgeEntries (db : DB) (R : List String) (v : String) : Nat :=
  (R.map (fun u => ((relsOfB db u).filter (fun r => r.2 == v)).length)).sum

/-- Certificate that the subgraph reachable from s is a tree rooted at s:
R contains s and is closed under relationship destinations, no
relationship of R points back to s, and every other node of R is the
destination of at most one relationship entry from R.  This is exactly
the situation in which no node is reachable from s along two distinct
relationship sequences. -/
def treeCert (db : DB) (s : String) (R : List String) : Bool :=
  nodupB R && R.contains s &&
  R.all (fun u => (relsOfB db u).all (fun r => R.contains r.2)) &&
  R.all (fun u => (relsOfB db u).all (fun r => r.2 != s)) &&
  R.all (fun v => v == s || decide (inEdgeEntries db R v ≤ 1))

/-- Evidence extracted from a hasloop revisit: either some reachable node
has a relationship back to s, or some node other than s is the target of
two distinct relationship entries of reachable nodes. -/
def DoubleEntry (db : DB) (s adj : String) : Prop :=
  (adj = s ∧ ∃ u t, Reach db none s u ∧ (t, adj) ∈ relsOfB db u) ∨
  (adj ≠ s ∧ ∃ u₁ t₁ u₂ t₂, Reach db none s u₁ ∧ Reach db none s u₂ ∧
    (t₁, adj) ∈ relsOfB db u₁ ∧ (t₂, adj) ∈ relsOfB db u₂ ∧ (u₁ ≠ u₂ ∨ t₁ ≠ t₂))

/-- Loop invariant of the hasloop-mode BFS (allowRels absent, endNode the
sentinel), at the top of each while iteration: visited names are distinct,
reachable, existing nodes of the universe; queued names are visited; every
dequeued (visited, no longer queued) node has all its relationship targets
visited at strictly larger discovery index; and every visited node other
than s records the relationship entry that discovered it, whose source is
already dequeued. -/
structure HInv (db : DB) (s : String) (Q : List String) (visited : VisitMap) : Prop where
  vnodup : (vkeys visited).Nodup
  qsub : ∀ x ∈ Q, x ∈ vkeys visited
  qnodup : Q.Nodup
  startv : s ∈ vkeys visited
  vreach : ∀ v ∈ vkeys visited, Reach db none s v
  vuniv : ∀ v ∈ vkeys visited, v ∈ bfsUniverse db s
  vexists : ∀ v ∈ vkeys visited, hasKey db v = true
  closed : ∀ u ∈ vkeys visited, u ∉ Q → ∀ r ∈ relsOfB db u,
    r.2 ∈ vkeys visited ∧ vidx visited u < vidx visited r.2
  parentOk : ∀ v ∈ vkeys visited, v ≠ s → ∃ info, getKey visited v = some info ∧
    ∃ p rn, info.parent = some p ∧ info.rname = some rn ∧
      (rn, v) ∈ relsOfB db p ∧ p ∈ vkeys visited ∧ p ∉ Q

/-- Mid-scan invariant of the hasloop-mode BFS while the relationship list
of the dequeued node cnode is being processed: es is the not yet scanned
part of cnode's relationships, every scanned relationship of cnode already
discovered its target, and nodes discovered during this scan record cnode
and an already scanned entry as their discovery. -/
structure MS (db : DB) (s cnode : String) (es : List RelKey) (visited : VisitMap)
    (q : List String) : Prop where
  vnodup : (vkeys visited).Nodup
  qsub : ∀ x ∈ q, x ∈ vkeys visited
  qnodup : q.Nodup
  startv : s ∈ vkeys visited
  vreach : ∀ v ∈ vkeys visited, Reach db none s v
  vuniv : ∀ v ∈ vkeys visited, v ∈ bfsUniverse db s
  vexists : ∀ v ∈ vkeys visited, hasKey db v = true
  cnodeV : cnode ∈ vkeys visited
  cnodeNQ : cnode ∉ q
  esSub : ∀ r ∈ es, r ∈ relsOfB db cnode
  esSuffix : ∃ done, done ++ es = relsOfB db cnode
  esPart : ∀ r ∈ relsOfB db cnode, r ∈ es ∨
    (r.2 ∈ vkeys visited ∧ vidx visited cnode < vidx visited r.2)
  closedOld : ∀ u ∈ vkeys visited, u ∉ q → u ≠ cnode → ∀ r ∈ relsOfB db u,
    r.2 ∈ vkeys visited ∧ vidx visited u < vidx visited r.2
  parentOk : ∀ v ∈ vkeys visited, v ≠ s → ∃ info, getKey visited v = some info ∧
    ∃ p rn, info.parent = some p ∧ info.rname = some rn ∧
      (rn, v) ∈ relsOfB db p ∧ p ∈ vkeys visited ∧ p ∉ q ∧
      (p = cnode → (rn, v) ∉ es)

/-- Final-state facts of a completed hasloop run: every relationship out of
a visited node leads to a visited node of strictly larger discovery index. -/
def ClosedAll (db : DB) (visited : VisitMap) : Prop :=
  ∀ u ∈ vkeys visited, ∀ r ∈ relsOfB db u,
    r.2 ∈ vkeys visited ∧ vidx visited u < vidx visited r.2

/-- There is a valid allowed path of exactly n hops from s to v. -/
def PathTo (db : DB) (allow : Option (List String)) (s v : String) (n : Nat) : Prop :=
  ∃ p, validPathB db allow s v p = true ∧ p.length = n

/-- n is the length of a shortest valid allowed path from s to v. -/
def IsDist (db : DB) (allow : Option (List String)) (s v : String) (n : Nat) : Prop :=
  PathTo db allow s v n ∧ ∀ m, PathTo db allow s v m → n ≤ m

/-- Loop invariant of the ordinary (searching) BFS at the top of each while
iteration.  Every visited node records its true shortest distance from s
and a parent chain reconstructing a shortest path; the queue splits into a
front segment at distance d and a back segment at distance d + 1; every
unvisited node is at distance at least d + 1; every dequeued node has all
its allowed relationship targets visited (and none of them equal to s when
s is also the search target, since that case returns); and the target e is
never visited unless it is s itself. -/
structure BInv (db : DB) (allow : Option (List String)) (s e : String)
    (Q : List String) (visited : VisitMap) : Prop where
  vnodup : (vkeys visited).Nodup
  qsub : ∀ x ∈ Q, x ∈ vkeys visited
  qnodup : Q.Nodup
  startv : s ∈ vkeys visited
  vexists : ∀ v ∈ vkeys visited, hasKey db v = true
  vuniv : ∀ v ∈ vkeys visited, v ∈ bfsUniverse db s
  eNotV : e ≠ s → e ∉ vkeys visited
  recv : ∀ v ∈ vkeys visited, ∃ info, getKey visited v = some info ∧
    IsDist db allow s v info.distance ∧
    ∃ p, getPath visited v = some p ∧ validPathB db allow s v p = true ∧
      p.length = info.distance
  closedB : ∀ u ∈ vkeys visited, u ∉ Q → ∀ r ∈ relsOfB db u,
    relAllowed allow r.1 = true → r.2 ∈ vkeys visited ∧ (s = e → r.2 ≠ s)
  qlevels : ∃ d Q₁ Q₂, Q = Q₁ ++ Q₂ ∧ (Q ≠ [] → Q₁ ≠ []) ∧
    (∀ x ∈ Q₁, ∃ i, getKey visited x = some i ∧ i.distance = d) ∧
    (∀ x ∈ Q₂, ∃ i, getKey visited x = some i ∧ i.distance = d + 1) ∧
    (∀ w, w ∉ vkeys visited → ∀ n, PathTo db allow s w n → d + 1 ≤ n) ∧
    (∀ u ∈ vkeys visited, u ∉ Q → ∃ i, getKey visited u = some i ∧ i.distance ≤ d)

/-- Mid-scan invariant of the ordinary BFS while the relationship list of
the dequeued node cnode (at distance d) is being processed; the queue is
kept split as Q₁ (distance d) and Q₂ (distance d + 1, growing). -/
structure BMS (db : DB) (allow : Option (List String)) (s e cnode : String) (d : Nat)
    (es : List RelKey) (visited : VisitMap) (Q₁ Q₂ : List String) : Prop where
  vnodup : (vkeys visited).Nodup
  qsub : ∀ x ∈ Q₁ ++ Q₂, x ∈ vkeys visited
  qnodup : (Q₁ ++ Q₂).Nodup
  startv : s ∈ vkeys visited
  vexists : ∀ v ∈ vkeys visited, hasKey db v = true
  vuniv : ∀ v ∈ vkeys visited, v ∈ bfsUniverse db s
  eNotV : e ≠ s → e ∉ vkeys visited
  recv : ∀ v ∈ vkeys visited, ∃ info, getKey visited v = some info ∧
    IsDist db allow s v info.distance ∧
    ∃ p, getPath visited v = some p ∧ validPathB db allow s v p = true ∧
      p.length = info.distance
  cnodeV : cnode ∈ vkeys visited
  cnodeNQ : cnode ∉ Q₁ ++ Q₂
  cdist : ∃ ci, getKey visited cnode = some ci ∧ ci.distance = d
  esSub : ∀ r ∈ es, r ∈ relsOfB db cnode
  esSuffix : ∃ done, done ++ es = relsOfB db cnode
  esPart : ∀ r ∈ relsOfB db cnode, relAllowed allow r.1 = true → r ∈ es ∨
    (r.2 ∈ vkeys visited ∧ (s = e → r.2 ≠ s))
  closedOld : ∀ u ∈ vkeys visited, u ∉ Q₁ ++ Q₂ → u ≠ cnode → ∀ r ∈ relsOfB db u,
    relAllowed allow r.1 = true → r.2 ∈ vkeys visited ∧ (s = e → r.2 ≠ s)
  lvl1 : ∀ x ∈ Q₁, ∃ i, getKey visited x = some i ∧ i.distance = d
  lvl2 : ∀ x ∈ Q₂, ∃ i, getKey visited x = some i ∧ i.distance = d + 1
  unvisLB : ∀ w, w ∉ vkeys visited → ∀ n, PathTo db allow s w n → d + 1 ≤ n
  procLE : ∀ u ∈ vkeys visited, u ∉ Q₁ ++ Q₂ → u ≠ cnode →
    ∃ i, getKey visited u = some i ∧ i.distance ≤ d

/-- Name of the i-th leaf node of the large star store: i+1 letters l. -/
def leafName (i : Nat) : String := String.mk (List.replicate (i + 1) 'l')

/-- A well-formed store on which BFS blocks forever: S has relationships to
10001 distinct leaves, and leaf 0 reaches E, so a two-hop path from S to E
exists; but scanning S's relationship list enqueues one fresh leaf per
entry, and the 10001st put finds the 10000-entry queue full. -/
def starDB : DB :=
  ("S", [("__rels", PVal.relDict
    ((List.range 10001).map (fun i => (("t", leafName i), ([] : PropMap)))))]) ::
  ("E", [("__rels", PVal.relDict [])]) ::
  (leafName 0, [("__rels", PVal.relDict [(("t", "E"), ([] : PropMap))])]) ::
  (List.range 10000).map (fun i => (leafName (i + 1), [("__rels", PVal.relDict [])]))

/-- The relationship key list of S in starDB. -/
def starEdges : List RelKey := (List.range 10001).map (fun i => ("t", leafName i))

theorem getKey_setKey_self {α β : Type} [DecidableEq α] (m : List (α × β)) (k : α) (v : β) :
    getKey (setKey m k v) k = some v := by
  induction m with
  | nil => simp [setKey, getKey]
  | cons kv rest ih =>
    obtain ⟨k0, v0⟩ := kv
    by_cases h : k0 = k
    · subst h; simp [setKey, getKey]
    · simp [setKey, getKey, h, ih]

theorem getKey_setKey_ne {α β : Type} [DecidableEq α] (m : List (α × β)) (k k' : α) (v : β)
    (h : k ≠ k') : getKey (setKey m k v) k' = getKey m k' := by
  induction m with
  | nil => simp [setKey, getKey, h]
  | cons kv rest ih =>
    obtain ⟨k0, v0⟩ := kv
    by_cases h0 : k0 = k
    · subst h0; simp [setKey, getKey, h]
    · simp [setKey, getKey, h0, ih]

theorem getKey_mem {α β : Type} [DecidableEq α] {m : List (α × β)} {k : α} {v : β}
    (h : getKey m k = some v) : (k, v) ∈ m := by
  induction m with
  | nil => simp [getKey] at h
  | cons kv rest ih =>
    obtain ⟨k0, v0⟩ := kv
    by_cases h0 : k0 = k
    · subst h0
      simp [getKey] at h
      subst h
      exact List.mem_cons_self _ _
    · simp [getKey, h0] at h
      exact List.mem_cons_of_mem _ (ih h)

theorem mergeProps_getKey_ne (base : PropMap) (props : PropMap) (k : String)
    (h : ∀ kv ∈ props, kv.1 ≠ k) : getKey (mergeProps base props) k = getKey base k := by
  induction props generalizing base with
  | nil => rfl
  | cons kv rest ih =>
    have hne : kv.1 ≠ k := h kv (List.mem_cons_self _ _)
    have hrest : ∀ kv' ∈ rest, kv'.1 ≠ k := fun kv' hm => h kv' (List.mem_cons_of_mem _ hm)
    show getKey (mergeProps (setKey base kv.1 kv.2) rest) k = getKey base k
    rw [ih _ hrest, getKey_setKey_ne _ _ _ _ hne]

theorem wfDB_node {db : DB} {s : String} {nd : PropMap} (hwf : wfDB db = true)
    (h : getKey db s = some nd) :
    ∃ rels, getKey nd "__rels" = some (PVal.relDict rels) ∧
      nodupB (rels.map (fun r => r.1)) = true ∧
      rels.all (fun r => hasKey db r.1.2) = true := by
  have hmem : (s, nd) ∈ db := getKey_mem h
  unfold wfDB at hwf
  rw [Bool.and_eq_true] at hwf
  have hall := (List.all_eq_true.mp hwf.2) (s, nd) hmem
  cases hk : getKey nd "__rels" with
  | none => rw [hk] at hall; simp at hall
  | some pv =>
    cases pv with
    | relDict rels =>
      rw [hk] at hall
      rw [Bool.and_eq_true] at hall
      exact ⟨rels, rfl, hall.1, hall.2⟩
    | str a => rw [hk] at hall; simp at hall
    | int a => rw [hk] at hall; simp at hall
    | nodeRef a => rw [hk] at hall; simp at hall

/-- C7: adding a node whose name is already present always fails with
NodeAlreadyExists, for any properties, and returns the store unchanged. -/
theorem addNode_existing_fails (db : DB) (name : String) (props : Option PropMap)
    (h : hasKey db name = true) :
    addNode db name props = (db, some (Err.nodeAlreadyExists name)) := by
  simp [addNode, h]

/-- Witness for C7 at a concrete store. -/
theorem addNode_existing_fails_witness :
    hasKey dbW1 "A" = true ∧
    addNode dbW1 "A" (some [("k", PVal.int 1)]) = (dbW1, some (Err.nodeAlreadyExists "A")) :=
  ⟨by decide, addNode_existing_fails dbW1 "A" (some [("k", PVal.int 1)]) (by decide)⟩

/-- C8: mergeRelProperties on a missing endpoint or missing relationship is
a silent no-op that leaves the store unchanged, while mergeNodeProperties
on a missing node fails with NodeNotFound. -/
theorem mergeRel_noop_mergeNode_raises (db : DB) (t s d n : String)
    (props ps : PropMap) (hwf : wfDB db = true) :
    (relExistsB db t s d = false → mergeRelProperties db t s d props = (db, none)) ∧
    (hasKey db n = false → mergeNodeProperties db n ps = (db, some (Err.mergeNodeNotFound n))) := by
  constructor
  · intro hrel
    cases hs : (hasKey db s && hasKey db d) with
    | false => simp [mergeRelProperties, hs]
    | true =>
      have hsk : hasKey db s = true := by
        rw [Bool.and_eq_true] at hs; exact hs.1
      obtain ⟨nd, hnd⟩ := Option.isSome_iff_exists.mp hsk
      obtain ⟨rels, hrels, -, -⟩ := wfDB_node hwf hnd
      have hre : getKey rels (t, d) = none := by
        unfold relExistsB relEntry at hrel
        rw [hs] at hrel
        simp only [Bool.true_and, hnd, nodeRels, hrels] at hrel
        exact Option.not_isSome_iff_eq_none.mp (by simp [hrel])
      simp [mergeRelProperties, hs, hnd, nodeRels, hrels, hre]
  · intro hn
    have hno : getKey db n = none := by
      cases h' : getKey db n with
      | none => rfl
      | some v => unfold hasKey at hn; rw [h'] at hn; simp at hn
    simp [mergeNodeProperties, hno]

/-- Witness for C8 at a concrete store: a missing relationship name between
existing nodes, and a missing node. -/
theorem mergeRel_noop_mergeNode_raises_witness :
    wfDB dbW2 = true ∧ relExistsB dbW2 "q" "A" "B" = false ∧ hasKey dbW2 "Z" = false ∧
    mergeRelProperties dbW2 "q" "A" "B" [("k", PVal.int 1)] = (dbW2, none) ∧
    mergeNodeProperties dbW2 "Z" [("k", PVal.int 1)] = (dbW2, some (Err.mergeNodeNotFound "Z")) :=
  ⟨by decide, by decide, by decide,
   (mergeRel_noop_mergeNode_raises dbW2 "q" "A" "B" "Z" [("k", PVal.int 1)] [("k", PVal.int 1)]
     (by decide)).1 (by decide),
   (mergeRel_noop_mergeNode_raises dbW2 "q" "A" "B" "Z" [("k", PVal.int 1)] [("k", PVal.int 1)]
     (by decide)).2 (by decide)⟩

/-- C6: getNodeProps never returns a key beginning with the reserved double
underscore marker; in particular the internal "__rels" key never appears. -/
theorem getNodeProps_no_reserved (db : DB) (name : String) (props : PropMap)
    (h : getNodeProps db name = Except.ok props) :
    ∀ kv ∈ props, isHiddenKey kv.1 = false ∧ kv.1 ≠ "__rels" := by
  intro kv hkv
  unfold getNodeProps at h
  cases hnd : getKey db name with
  | none => rw [hnd] at h; exact absurd h (by simp)
  | some node =>
    rw [hnd] at h
    rw [Except.ok.injEq] at h
    subst h
    rw [List.mem_filter] at hkv
    have hhid : isHiddenKey kv.1 = false := by
      have h2 := hkv.2
      simpa using h2
    refine ⟨hhid, ?_⟩
    intro heq
    rw [heq] at hhid
    exact absurd hhid (by decide)

/-- Witness for C6 at a concrete store and a concrete returned entry. -/
theorem getNodeProps_no_reserved_witness :
    isHiddenKey "color" = false ∧ "color" ≠ "__rels" :=
  getNodeProps_no_reserved dbW1 "A" [("color", PVal.str "red")] rfl
    ("color", PVal.str "red") (by simp)

/-- C10: merging node properties none of whose keys is the reserved "__rels"
leaves the node's outgoing relationship set unchanged, and succeeds. -/
theorem mergeNodeProperties_preserves_rels (db : DB) (n : String) (props : PropMap)
    (hn : hasKey db n = true) (hk : ∀ kv ∈ props, kv.1 ≠ "__rels") :
    relsEntry (mergeNodeProperties db n props).1 n = relsEntry db n ∧
    (mergeNodeProperties db n props).2 = none := by
  obtain ⟨nd, hnd⟩ := Option.isSome_iff_exists.mp hn
  have hres : mergeNodeProperties db n props = (setKey db n (mergeProps nd props), none) := by
    simp [mergeNodeProperties, hnd]
  constructor
  · rw [hres]
    simp only [relsEntry, getKey_setKey_self, hnd]
    exact mergeProps_getKey_ne nd props "__rels" hk
  · rw [hres]

/-- Witness for C10 at a concrete store with one relationship. -/
theorem mergeNodeProperties_preserves_rels_witness :
    relsEntry (mergeNodeProperties dbW2 "A" [("k", PVal.int 2)]).1 "A" = relsEntry dbW2 "A" ∧
    (mergeNodeProperties dbW2 "A" [("k", PVal.int 2)]).2 = none :=
  mergeNodeProperties_preserves_rels dbW2 "A" [("k", PVal.int 2)] (by decide) (by decide)

/-- C1 (code bug): re-adding the same (name, dst) relationship does not
raise RelationshipAlreadyExists and silently resets its weight: the
duplicate check compares the bare name string against the (name, dst)
tuple keys of the relationship dict and therefore never fires. -/
theorem addRelationship_duplicate_overwrites :
    (addRelationship dbC1 "t" "A" "B" none 5).2 = none ∧
    (relEntry dbC1 "t" "A" "B").bind (fun r => getKey r "__weight") = some (PVal.int 1) ∧
    (relEntry (addRelationship dbC1 "t" "A" "B" none 5).1 "t" "A" "B").bind
      (fun r => getKey r "__weight") = some (PVal.int 5) :=
  ⟨rfl, rfl, rfl⟩

/-- The periodic DFS state on dbC9: one copy of B is popped, B is not marked
visited because the other copy is still on the stack, and B's self-loop
pushes it right back, forever. -/
theorem dfsLoop_dbC9_cycle :
    ∀ (fuel : Nat) (p : List PathElem),
      dfsLoop dbC9 "A" "A" none fuel ["B", "B"] ["A"] [("B", p)] = TravOut.hung := by
  intro fuel
  induction fuel with
  | zero => intro p; rfl
  | succ n ih =>
    intro p
    have step : dfsLoop dbC9 "A" "A" none (n + 1) ["B", "B"] ["A"] [("B", p)] =
        dfsLoop dbC9 "A" "A" none n ["B", "B"] ["A"]
          [("B", p ++ [PathElem.hop "B" "z" "B"])] := rfl
    rw [step]
    exact ih _

/-- C9 (code bug): DFS does not terminate on the finite store dbC9 for the
query from A to A: after the first iteration the loop is in a state it
re-enters forever, so the embedding reports hung for every fuel. -/
theorem traverse_dfs_nonterminating :
    (∀ (fuel : Nat) (p : List PathElem),
      dfsLoop dbC9 "A" "A" none fuel ["B", "B"] ["A"] [("B", p)] = TravOut.hung) ∧
    traverse dbC9 "A" "A" none "DFS" = TravOut.hung :=
  ⟨dfsLoop_dbC9_cycle, rfl⟩

/-- The periodic DFS state on dbC5; the entry for D sits below the two
copies of B on the stack and is never popped. -/
theorem dfsLoop_dbC5_cycle :
    ∀ (fuel : Nat) (p : List PathElem),
      dfsLoop dbC5 "A" "E" none fuel ["B", "B", "D"] ["A"]
        [("D", [PathElem.hop "A" "x" "D"]), ("B", p)] = TravOut.hung := by
  intro fuel
  induction fuel with
  | zero => intro p; rfl
  | succ n ih =>
    intro p
    have step : dfsLoop dbC5 "A" "E" none (n + 1) ["B", "B", "D"] ["A"]
        [("D", [PathElem.hop "A" "x" "D"]), ("B", p)] =
        dfsLoop dbC5 "A" "E" none n ["B", "B", "D"] ["A"]
          [("D", [PathElem.hop "A" "x" "D"]), ("B", p ++ [PathElem.hop "B" "w" "B"])] := rfl
    rw [step]
    exact ih _

/-- C5 (code bug): a valid path A -x-> D -u-> E exists in dbC5, yet DFS from
A to E never returns: it re-pops B forever and never examines D, which lies
below the duplicate copies of B on the stack. -/
theorem traverse_dfs_misses_path :
    validPathB dbC5 none "A" "E" [PathElem.hop "A" "x" "D", PathElem.hop "D" "u" "E"] = true ∧
    (∀ (fuel : Nat) (p : List PathElem),
      dfsLoop dbC5 "A" "E" none fuel ["B", "B", "D"] ["A"]
        [("D", [PathElem.hop "A" "x" "D"]), ("B", p)] = TravOut.hung) ∧
    traverse dbC5 "A" "E" none "DFS" = TravOut.hung :=
  ⟨by decide, dfsLoop_dbC5_cycle, rfl⟩

/-- C3 (counterexample): on the self-loop store the start node lies on a
cycle and hasloop answers true, but the returned list is the placeholder
message, not a path ending in a closing hop of the store. -/
theorem hasloop_path_placeholder :
    edgeB dbC3 "A" "t" "A" = true ∧
    hasloop dbC3 "A" = TravOut.ok true [PathElem.msg "Path TBD: Found loop around A"] ∧
    hasloopPathConcl dbC3 "A" = false :=
  ⟨by decide, rfl, by decide⟩

theorem topoOrder_edge_lt {db : DB} {order : List String} (h : isTopoOrder db order = true)
    {u t v : String} (he : edgeB db u t v = true) :
    order.indexOf u < order.indexOf v := by
  unfold edgeB relsOfB at he
  cases hg : getRelationships db u with
  | error e => rw [hg] at he; simp at he
  | ok rels =>
    rw [hg] at he
    have hmem : (t, v) ∈ rels := List.mem_of_elem_eq_true he
    unfold getRelationships at hg
    cases hnd : getKey db u with
    | none => rw [hnd] at hg; simp at hg
    | some nd =>
      rw [hnd] at hg
      have hmem2 : (u, nd) ∈ db := getKey_mem hnd
      unfold isTopoOrder at h
      rw [Bool.and_eq_true, Bool.and_eq_true] at h
      have hall := (List.all_eq_true.mp h.2) (u, nd) hmem2
      have hrels : relsOfB db u = rels := by
        unfold relsOfB getRelationships
        rw [hnd, hg]
      rw [hrels] at hall
      have hthis := (List.all_eq_true.mp hall) (t, v) hmem
      rw [Bool.and_eq_true] at hthis
      exact of_decide_eq_true hthis.2

theorem topoOrder_reach_le {db : DB} {order : List String} (h : isTopoOrder db order = true)
    {v w : String} (hr : Reach db none v w) :
    order.indexOf v ≤ order.indexOf w := by
  induction hr with
  | refl => exact le_refl _
  | tail t h1 h2 h3 ih => exact le_of_lt (lt_of_le_of_lt ih (topoOrder_edge_lt h h2))

/-- A topological-order certificate rules out any directed cycle: no node
can both reach a node and be the target of one of its relationships. -/
theorem topoOrder_acyclic {db : DB} {order : List String} (h : isTopoOrder db order = true)
    {v w : String} (t : String) (h1 : Reach db none v w) (h2 : edgeB db w t v = true) :
    False := by
  have hle := topoOrder_reach_le h h1
  have hlt := topoOrder_edge_lt h h2
  omega

/-- C4 (counterexample): the diamond store is acyclic, certified by the
topological order A, B, C, D (topoOrder_acyclic), and every node is
reachable from A, yet hasloop from A answers true with the placeholder
message because D is reached along two distinct paths. -/
theorem hasloop_diamond_false_positive :
    isTopoOrder dbC4 ["A", "B", "C", "D"] = true ∧
    hasloop dbC4 "A" = TravOut.ok true [PathElem.msg "Path TBD: Found loop around D"] :=
  ⟨by decide, rfl⟩

theorem hasKey_iff_mem {α β : Type} [DecidableEq α] (m : List (α × β)) (a : α) :
    hasKey m a = true ↔ a ∈ m.map (fun kv => kv.1) := by
  induction m with
  | nil => simp [hasKey, getKey]
  | cons kv rest ih =>
    obtain ⟨k0, v0⟩ := kv
    by_cases h : k0 = a
    · subst h; simp [hasKey, getKey]
    · have hne : a ≠ k0 := fun heq => h heq.symm
      have h1 : hasKey ((k0, v0) :: rest) a = hasKey rest a := by simp [hasKey, getKey, h]
      rw [h1, ih]
      simp [List.map_cons, List.mem_cons, hne]

theorem hasKey_vkeys (visited : VisitMap) (a : String) :
    hasKey visited a = true ↔ a ∈ vkeys visited :=
  hasKey_iff_mem visited a

theorem setKey_fresh {α β : Type} [DecidableEq α] (m : List (α × β)) (k : α) (v : β)
    (h : hasKey m k = false) : setKey m k v = m ++ [(k, v)] := by
  induction m with
  | nil => rfl
  | cons kv rest ih =>
    obtain ⟨k0, v0⟩ := kv
    by_cases h0 : k0 = k
    · subst h0; simp [hasKey, getKey] at h
    · have hr : hasKey rest k = false := by
        simpa [hasKey, getKey, h0] using h
      simp [setKey, h0, ih hr]

theorem getKey_append_left {α β : Type} [DecidableEq α] {m : List (α × β)} {a : α} {w : β}
    (l' : List (α × β)) (h : getKey m a = some w) : getKey (m ++ l') a = some w := by
  induction m with
  | nil => simp [getKey] at h
  | cons kv rest ih =>
    obtain ⟨k0, v0⟩ := kv
    by_cases h0 : k0 = a
    · subst h0; simp [getKey] at h ⊢; exact h
    · simp [getKey, h0] at h ⊢; exact ih h

theorem getKey_append_right {α β : Type} [DecidableEq α] {m : List (α × β)} {a : α}
    (l' : List (α × β)) (h : getKey m a = none) : getKey (m ++ l') a = getKey l' a := by
  induction m with
  | nil => rfl
  | cons kv rest ih =>
    obtain ⟨k0, v0⟩ := kv
    by_cases h0 : k0 = a
    · subst h0; simp [getKey] at h
    · simp [getKey, h0] at h ⊢; exact ih h

theorem hasKey_append_single_ne {α β : Type} [DecidableEq α] (m : List (α × β)) (k a : α)
    (v : β) (h : a ≠ k) : hasKey (m ++ [(k, v)]) a = hasKey m a := by
  have hka : ¬ k = a := fun heq => h heq.symm
  cases hg : getKey m a with
  | some w => simp [hasKey, getKey_append_left _ hg, hg]
  | none =>
    have h2 := @getKey_append_right α β _ m a [(k, v)] hg
    have h3 : getKey ([(k, v)] : List (α × β)) a = none := by simp [getKey, hka]
    simp [hasKey, h2, h3, hg]

theorem hasKey_append_single_self {α β : Type} [DecidableEq α] (m : List (α × β)) (k : α)
    (v : β) (h : getKey m k = none) : hasKey (m ++ [(k, v)]) k = true := by
  have h2 := @getKey_append_right α β _ m k [(k, v)] h
  simp [hasKey, h2, getKey]

theorem idxIn_append_left (l l' : List String) (a : String) (h : a ∈ l) :
    idxIn (l ++ l') a = idxIn l a := by
  induction l with
  | nil => simp at h
  | cons x rest ih =>
    by_cases hx : x = a
    · simp [idxIn, hx]
    · have hr : a ∈ rest := by
        rcases List.mem_cons.mp h with h1 | h1
        · exact absurd h1.symm hx
        · exact h1
      simp [idxIn, hx, ih hr]

theorem idxIn_append_new (l : List String) (a : String) (h : a ∉ l) :
    idxIn (l ++ [a]) a = l.length := by
  induction l with
  | nil => simp [idxIn]
  | cons x rest ih =>
    have hx : x ≠ a := fun he => h (he ▸ List.mem_cons_self _ _)
    have hr : a ∉ rest := fun hm => h (List.mem_cons_of_mem _ hm)
    simp [idxIn, hx, ih hr]

theorem idxIn_lt_length (l : List String) (a : String) (h : a ∈ l) :
    idxIn l a < l.length := by
  induction l with
  | nil => simp at h
  | cons x rest ih =>
    by_cases hx : x = a
    · simp [idxIn, hx]
    · have hr : a ∈ rest := by
        rcases List.mem_cons.mp h with h1 | h1
        · exact absurd h1.symm hx
        · exact h1
      simp only [idxIn, if_neg hx, List.length_cons]
      exact Nat.succ_lt_succ (ih hr)

theorem vkeys_append (visited : VisitMap) (k : String) (i : VisitInfo) :
    vkeys (visited ++ [(k, i)]) = vkeys visited ++ [k] := by
  simp [vkeys]

theorem unvis_filter_aux (visited : VisitMap) (adj : String) (info : VisitInfo)
    (hfresh : hasKey visited adj = false) (hnone : getKey visited adj = none) :
    ∀ (l : List String), l.Nodup → adj ∈ l →
      (l.filter (fun y => !(hasKey (visited ++ [(adj, info)]) y))).length + 1 =
      (l.filter (fun y => !(hasKey visited y))).length := by
  intro l
  induction l with
  | nil => intro _ hu; simp at hu
  | cons x rest ih =>
    intro hnd hu
    have hndr : rest.Nodup := (List.nodup_cons.mp hnd).2
    by_cases hx : x = adj
    · subst hx
      have hrest : x ∉ rest := (List.nodup_cons.mp hnd).1
      have hcong : rest.filter (fun y => !(hasKey (visited ++ [(x, info)]) y)) =
          rest.filter (fun y => !(hasKey visited y)) := by
        apply List.filter_congr
        intro y hy
        have hya : y ≠ x := fun he => hrest (he ▸ hy)
        rw [hasKey_append_single_ne _ _ _ _ hya]
      have hnew : hasKey (visited ++ [(x, info)]) x = true :=
        hasKey_append_single_self _ _ _ hnone
      simp [List.filter_cons, hnew, hfresh, hcong]
    · have hr : adj ∈ rest := by
        rcases List.mem_cons.mp hu with h1 | h1
        · exact absurd h1.symm hx
        · exact h1
      have hxa : x ≠ adj := hx
      have hsame : hasKey (visited ++ [(adj, info)]) x = hasKey visited x :=
        hasKey_append_single_ne _ _ _ _ hxa
      by_cases hpx : hasKey visited x
      · simp [List.filter_cons, hsame, hpx, ih hndr hr]
      · have hpx' : hasKey visited x = false := by
          cases hvv : hasKey visited x
          · rfl
          · exact absurd hvv hpx
        have h1 := ih hndr hr
        simp only [List.filter_cons, hsame, hpx', Bool.not_false, if_pos, List.length_cons]
        omega

theorem unvis_step (db : DB) (s : String) (visited : VisitMap) (adj : String)
    (info : VisitInfo) (hfresh : hasKey visited adj = false) (hu : adj ∈ bfsUniverse db s) :
    unvisCount db s (visited ++ [(adj, info)]) + 1 = unvisCount db s visited := by
  have hnone : getKey visited adj = none := by
    cases hg : getKey visited adj with
    | none => rfl
    | some w => simp [hasKey, hg] at hfresh
  have hnd : (bfsUniverse db s).Nodup := by
    unfold bfsUniverse; exact List.nodup_dedup _
  exact unvis_filter_aux visited adj info hfresh hnone (bfsUniverse db s) hnd hu

theorem allDsts_len (db : DB) : (allDsts db).length = relCount db := by
  induction db with
  | nil => rfl
  | cons kv rest ih =>
    unfold allDsts relCount
    unfold allDsts relCount at ih
    simp only [List.map_cons, List.flatten_cons, List.length_append, List.sum_cons]
    rw [ih]
    cases hk : getKey kv.2 "__rels" with
    | none => simp
    | some pv => cases pv <;> simp

theorem universe_len_le (db : DB) (s : String) :
    (bfsUniverse db s).length ≤ 1 + relCount db := by
  unfold bfsUniverse
  have h := List.Sublist.length_le (List.dedup_sublist (s :: allDsts db))
  simp only [List.length_cons, allDsts_len] at h
  omega

theorem start_mem_universe (db : DB) (s : String) : s ∈ bfsUniverse db s := by
  simp [bfsUniverse, List.mem_dedup]

theorem relsOfB_eq {db : DB} {u : String} {nd : PropMap}
    {rels : List (RelKey × List (String × PVal))} (hnd : getKey db u = some nd)
    (hrels : getKey nd "__rels" = some (PVal.relDict rels)) :
    relsOfB db u = rels.map (fun e => e.1) := by
  simp [relsOfB, getRelationships, hnd, nodeRels, hrels]

theorem mem_allDsts {db : DB} {u : String} {nd : PropMap} (h : getKey db u = some nd)
    {t v : String} (hr : (t, v) ∈ relsOfB db u) : v ∈ allDsts db := by
  have hmem : (u, nd) ∈ db := getKey_mem h
  cases hk : getKey nd "__rels" with
  | none =>
    rw [show relsOfB db u = [] from by simp [relsOfB, getRelationships, h, nodeRels, hk]] at hr
    simp at hr
  | some pv =>
    cases pv with
    | relDict rels =>
      rw [relsOfB_eq h hk] at hr
      unfold allDsts
      rw [List.mem_flatten]
      refine ⟨rels.map (fun e => e.1.2), List.mem_map.mpr ⟨(u, nd), hmem, by simp [hk]⟩, ?_⟩
      obtain ⟨e, he, heq⟩ := List.mem_map.mp hr
      refine List.mem_map.mpr ⟨e, he, ?_⟩
      rw [heq]
    | str a =>
      rw [show relsOfB db u = [] from by simp [relsOfB, getRelationships, h, nodeRels, hk]] at hr
      simp at hr
    | int a =>
      rw [show relsOfB db u = [] from by simp [relsOfB, getRelationships, h, nodeRels, hk]] at hr
      simp at hr
    | nodeRef a =>
      rw [show relsOfB db u = [] from by simp [relsOfB, getRelationships, h, nodeRels, hk]] at hr
      simp at hr

theorem getRelationships_wf {db : DB} {u : String} (hwf : wfDB db = true)
    (hu : hasKey db u = true) : getRelationships db u = Except.ok (relsOfB db u) := by
  obtain ⟨nd, hnd⟩ := Option.isSome_iff_exists.mp hu
  obtain ⟨rels, hrels, -, -⟩ := wfDB_node hwf hnd
  simp [getRelationships, relsOfB, hnd, nodeRels, hrels]

theorem rel_dst_exists {db : DB} {u t v : String} (hwf : wfDB db = true)
    (hu : hasKey db u = true) (hr : (t, v) ∈ relsOfB db u) : hasKey db v = true := by
  obtain ⟨nd, hnd⟩ := Option.isSome_iff_exists.mp hu
  obtain ⟨rels, hrels, -, hall⟩ := wfDB_node hwf hnd
  rw [relsOfB_eq hnd hrels] at hr
  obtain ⟨e, he, heq⟩ := List.mem_map.mp hr
  have h2 := (List.all_eq_true.mp hall) e he
  have h3 : e.1.2 = v := by rw [heq]
  rw [h3] at h2
  exact h2

theorem rel_keys_nodup {db : DB} {u : String} (hwf : wfDB db = true)
    (hu : hasKey db u = true) : nodupB (relsOfB db u) = true := by
  obtain ⟨nd, hnd⟩ := Option.isSome_iff_exists.mp hu
  obtain ⟨rels, hrels, hnodup, -⟩ := wfDB_node hwf hnd
  rw [relsOfB_eq hnd hrels]
  exact hnodup

theorem sentinel_not_target {db : DB} (hsent : noRelToSentinel db = true)
    {u : String} {nd : PropMap} (h : getKey db u = some nd)
    {t v : String} (hr : (t, v) ∈ relsOfB db u) : v ≠ "__INFINITY__" := by
  have hmem : (u, nd) ∈ db := getKey_mem h
  have h1 := (List.all_eq_true.mp hsent) (u, nd) hmem
  have h2 := (List.all_eq_true.mp h1) (t, v) hr
  simpa using h2

theorem reach_mem_of_closed {db : DB} {s : String} {visited : VisitMap}
    (hs : s ∈ vkeys visited) (hcl : ClosedAll db visited) {v : String}
    (hr : Reach db none s v) : v ∈ vkeys visited := by
  induction hr with
  | refl => exact hs
  | tail t h1 h2 h3 ih =>
    unfold edgeB at h2
    have hmem := List.mem_of_elem_eq_true h2
    exact (hcl _ ih _ hmem).1

theorem reach_idx_le_of_closed {db : DB} {visited : VisitMap}
    (hcl : ClosedAll db visited) {x y : String} (hr : Reach db none x y)
    (hx : x ∈ vkeys visited) :
    idxIn (vkeys visited) x ≤ idxIn (vkeys visited) y ∧ y ∈ vkeys visited := by
  induction hr with
  | refl => exact ⟨le_refl _, hx⟩
  | tail t h1 h2 h3 ih =>
    obtain ⟨hle, hmemv⟩ := ih
    unfold edgeB at h2
    have hmem := List.mem_of_elem_eq_true h2
    obtain ⟨hm2, hlt⟩ := hcl _ hmemv _ hmem
    exact ⟨le_of_lt (lt_of_le_of_lt hle hlt), hm2⟩

theorem two_mem_le_length {α : Type} {a b : α} {l : List α} (ha : a ∈ l) (hb : b ∈ l)
    (hne : a ≠ b) : 2 ≤ l.length := by
  induction l with
  | nil => simp at ha
  | cons x rest ih =>
    rcases List.mem_cons.mp ha with h1 | h1
    · rcases List.mem_cons.mp hb with h2 | h2
      · exact absurd (h1.trans h2.symm) hne
      · have := List.length_pos_of_mem h2
        simp only [List.length_cons]
        omega
    · rcases List.mem_cons.mp hb with h2 | h2
      · have := List.length_pos_of_mem h1
        simp only [List.length_cons]
        omega
      · have := ih h1 h2
        simp only [List.length_cons]
        omega

theorem mem_le_map_sum {α : Type} (f : α → Nat) {a : α} {l : List α} (h : a ∈ l) :
    f a ≤ (l.map f).sum := by
  induction l with
  | nil => simp at h
  | cons x rest ih =>
    rcases List.mem_cons.mp h with h1 | h1
    · subst h1; simp
    · simp only [List.map_cons, List.sum_cons]
      exact le_trans (ih h1) (Nat.le_add_left _ _)

theorem two_mem_map_sum {α : Type} (f : α → Nat) {a b : α} {l : List α}
    (ha : a ∈ l) (hb : b ∈ l) (hne : a ≠ b) : f a + f b ≤ (l.map f).sum := by
  induction l with
  | nil => simp at ha
  | cons x rest ih =>
    rcases List.mem_cons.mp ha with h1 | h1
    · subst h1
      have hb2 : b ∈ rest := by
        rcases List.mem_cons.mp hb with h2 | h2
        · exact absurd h2.symm hne
        · exact h2
      simp only [List.map_cons, List.sum_cons]
      exact Nat.add_le_add_left (mem_le_map_sum f hb2) _
    · rcases List.mem_cons.mp hb with h2 | h2
      · subst h2
        have h3 := mem_le_map_sum f h1
        simp only [List.map_cons, List.sum_cons]
        omega
      · have := ih h1 h2
        simp only [List.map_cons, List.sum_cons]
        omega

theorem nodup_append_single {α : Type} {l : List α} {a : α} (h1 : l.Nodup) (h2 : a ∉ l) :
    (l ++ [a]).Nodup := by
  rw [List.nodup_append]
  refine ⟨h1, List.nodup_singleton a, ?_⟩
  intro x hx hxa
  rw [List.mem_singleton] at hxa
  exact h2 (hxa ▸ hx)

theorem nodupB_mem {α : Type} [DecidableEq α] {l₁ l₂ : List α} {a : α}
    (h : nodupB (l₁ ++ a :: l₂) = true) : a ∉ l₂ := by
  induction l₁ with
  | nil =>
    simp only [List.nil_append, nodupB, Bool.and_eq_true] at h
    intro hm
    have h2 := List.elem_eq_true_of_mem hm
    have h3 := h.1
    rw [show l₂.contains a = List.elem a l₂ from rfl, h2] at h3
    simp at h3
  | cons x rest ih =>
    simp only [List.cons_append, nodupB, Bool.and_eq_true] at h
    exact ih h.2

theorem edgeB_of_mem {db : DB} {u t v : String} (h : (t, v) ∈ relsOfB db u) :
    edgeB db u t v = true := by
  unfold edgeB
  exact List.elem_eq_true_of_mem h

theorem mem_universe_of_allDsts {db : DB} (s : String) {v : String} (h : v ∈ allDsts db) :
    v ∈ bfsUniverse db s := by
  unfold bfsUniverse
  rw [List.mem_dedup]
  exact List.mem_cons_of_mem _ h

theorem hscan_run (db : DB) (s cnode : String) (hwf : wfDB db = true)
    (hsent : noRelToSentinel db = true) :
    ∀ (es : List RelKey) (visited : VisitMap) (q : List String),
    MS db s cnode es visited q →
    (∃ adj, bfsScan s "__INFINITY__" none true cnode es visited q =
        ScanOut.ret (TravOut.ok true [PathElem.msg ("Path TBD: Found loop around " ++ adj)]) ∧
      DoubleEntry db s adj) ∨
    (bfsScan s "__INFINITY__" none true cnode es visited q = ScanOut.ret TravOut.blocked) ∨
    (∃ visited' q', bfsScan s "__INFINITY__" none true cnode es visited q =
        ScanOut.cont visited' q' ∧ MS db s cnode [] visited' q' ∧
      q'.length + unvisCount db s visited' = q.length + unvisCount db s visited) := by
  intro es
  induction es with
  | nil =>
    intro visited q ms
    right; right
    exact ⟨visited, q, rfl, ms, rfl⟩
  | cons e es' ih =>
    obtain ⟨t, adj⟩ := e
    intro visited q ms
    have hts : (t, adj) ∈ relsOfB db cnode := ms.esSub (t, adj) (List.mem_cons_self _ _)
    by_cases hv : hasKey visited adj = true
    · left
      refine ⟨adj, ?_, ?_⟩
      · simp [bfsScan, relAllowed, hv]
      · have hmemv : adj ∈ vkeys visited := (hasKey_vkeys _ _).mp hv
        by_cases has : adj = s
        · exact Or.inl ⟨has, cnode, t, ms.vreach cnode ms.cnodeV, hts⟩
        · obtain ⟨info, hinfo, p, rn, hpar, hrn, hprel, hpv, hpq, himp⟩ :=
            ms.parentOk adj hmemv has
          refine Or.inr ⟨has, cnode, t, p, rn, ms.vreach cnode ms.cnodeV,
            ms.vreach p hpv, hts, hprel, ?_⟩
          by_cases hpc : p = cnode
          · subst hpc
            have hnotin := himp rfl
            right
            intro hteq
            apply hnotin
            rw [show rn = t from hteq.symm]
            exact List.mem_cons_self _ _
          · exact Or.inl (fun he => hpc he.symm)
    · have hv' : hasKey visited adj = false := by
        cases hvv : hasKey visited adj
        · rfl
        · exact absurd hvv hv
      obtain ⟨cinfo, hc⟩ := Option.isSome_iff_exists.mp ((hasKey_vkeys _ _).mpr ms.cnodeV)
      obtain ⟨nd, hnd⟩ := Option.isSome_iff_exists.mp (ms.vexists cnode ms.cnodeV)
      have hadjne : adj ≠ "__INFINITY__" := sentinel_not_target hsent hnd hts
      by_cases hq : q.length = queueMax
      · right; left
        simp [bfsScan, relAllowed, hv', hc, hadjne, hq]
      · have hadjnv : adj ∉ vkeys visited := by
          intro hm
          have h2 := (hasKey_vkeys visited adj).mpr hm
          rw [hv'] at h2
          exact absurd h2 (by decide)
        have hnone : getKey visited adj = none := by
          cases hg : getKey visited adj with
          | none => rfl
          | some w => simp [hasKey, hg] at hv'
        have hadjq : adj ∉ q := fun hm => hadjnv (ms.qsub adj hm)
        have hcadj : cnode ≠ adj := fun he => hadjnv (he ▸ ms.cnodeV)
        have hadju : adj ∈ bfsUniverse db s := mem_universe_of_allDsts s (mem_allDsts hnd hts)
        have hadjex : hasKey db adj = true := rel_dst_exists hwf (ms.vexists cnode ms.cnodeV) hts
        have hreachadj : Reach db none s adj :=
          Reach.tail t (ms.vreach cnode ms.cnodeV) (edgeB_of_mem hts) rfl
        have hset : setKey visited adj ⟨cinfo.distance + 1, some cnode, some t⟩ =
            visited ++ [(adj, ⟨cinfo.distance + 1, some cnode, some t⟩)] :=
          setKey_fresh _ _ _ hv'
        have ms' : MS db s cnode es'
            (visited ++ [(adj, ⟨cinfo.distance + 1, some cnode, some t⟩)]) (q ++ [adj]) := by
          refine ⟨?_, ?_, ?_, ?_, ?_, ?_, ?_, ?_, ?_, ?_, ?_, ?_, ?_, ?_⟩
          · rw [vkeys_append]
            exact nodup_append_single ms.vnodup hadjnv
          · intro x hx
            rw [vkeys_append]
            rcases List.mem_append.mp hx with h1 | h1
            · exact List.mem_append_left _ (ms.qsub x h1)
            · exact List.mem_append_right _ h1
          · exact nodup_append_single ms.qnodup hadjq
          · rw [vkeys_append]
            exact List.mem_append_left _ ms.startv
          · intro v hv2
            rw [vkeys_append] at hv2
            rcases List.mem_append.mp hv2 with h1 | h1
            · exact ms.vreach v h1
            · rw [List.mem_singleton] at h1
              exact h1 ▸ hreachadj
          · intro v hv2
            rw [vkeys_append] at hv2
            rcases List.mem_append.mp hv2 with h1 | h1
            · exact ms.vuniv v h1
            · rw [List.mem_singleton] at h1
              exact h1 ▸ hadju
          · intro v hv2
            rw [vkeys_append] at hv2
            rcases List.mem_append.mp hv2 with h1 | h1
            · exact ms.vexists v h1
            · rw [List.mem_singleton] at h1
              exact h1 ▸ hadjex
          · rw [vkeys_append]
            exact List.mem_append_left _ ms.cnodeV
          · intro hm
            rcases List.mem_append.mp hm with h1 | h1
            · exact ms.cnodeNQ h1
            · rw [List.mem_singleton] at h1
              exact hcadj h1
          · exact fun r hr => ms.esSub r (List.mem_cons_of_mem _ hr)
          · obtain ⟨done, hdone⟩ := ms.esSuffix
            exact ⟨done ++ [(t, adj)], by rw [List.append_assoc]; exact hdone⟩
          · intro r hrr
            rcases ms.esPart r hrr with hin | ⟨hmem2, hlt⟩
            · rcases List.mem_cons.mp hin with h1 | h1
              · right
                subst h1
                constructor
                · rw [vkeys_append]
                  exact List.mem_append_right _ (List.mem_singleton.mpr rfl)
                · unfold vidx
                  rw [vkeys_append, idxIn_append_left _ _ _ ms.cnodeV, idxIn_append_new _ _ hadjnv]
                  exact idxIn_lt_length _ _ ms.cnodeV
              · exact Or.inl h1
            · right
              constructor
              · rw [vkeys_append]
                exact List.mem_append_left _ hmem2
              · unfold vidx at hlt ⊢
                rw [vkeys_append, idxIn_append_left _ _ _ ms.cnodeV,
                  idxIn_append_left _ _ _ hmem2]
                exact hlt
          · intro u hu hunq hunc r hr
            have huq : u ∉ q := fun hm => hunq (List.mem_append_left _ hm)
            have hu' : u ∈ vkeys visited := by
              rw [vkeys_append] at hu
              rcases List.mem_append.mp hu with h1 | h1
              · exact h1
              · rw [List.mem_singleton] at h1
                exact absurd (List.mem_append_right q (List.mem_singleton.mpr h1))
                  hunq
            obtain ⟨hm2, hlt⟩ := ms.closedOld u hu' huq hunc r hr
            constructor
            · rw [vkeys_append]
              exact List.mem_append_left _ hm2
            · unfold vidx at hlt ⊢
              rw [vkeys_append, idxIn_append_left _ _ _ hu', idxIn_append_left _ _ _ hm2]
              exact hlt
          · intro v hv2 hvs
            rw [vkeys_append] at hv2
            rcases List.mem_append.mp hv2 with h1 | h1
            · obtain ⟨info0, hinfo0, p, rn, hpar, hrn, hprel, hpv, hpq, himp⟩ :=
                ms.parentOk v h1 hvs
              refine ⟨info0, getKey_append_left _ hinfo0, p, rn, hpar, hrn, hprel, ?_, ?_, ?_⟩
              · rw [vkeys_append]
                exact List.mem_append_left _ hpv
              · intro hm
                rcases List.mem_append.mp hm with h2 | h2
                · exact hpq h2
                · rw [List.mem_singleton] at h2
                  exact hadjnv (h2 ▸ hpv)
              · intro hpc
                have h3 := himp hpc
                exact fun hm => h3 (List.mem_cons_of_mem _ hm)
            · rw [List.mem_singleton] at h1
              subst h1
              refine ⟨⟨cinfo.distance + 1, some cnode, some t⟩, ?_, cnode, t, rfl, rfl, hts,
                ?_, ?_, ?_⟩
              · rw [getKey_append_right _ hnone]
                simp [getKey]
              · rw [vkeys_append]
                exact List.mem_append_left _ ms.cnodeV
              · intro hm
                rcases List.mem_append.mp hm with h2 | h2
                · exact ms.cnodeNQ h2
                · rw [List.mem_singleton] at h2
                  exact hcadj h2
              · intro _
                obtain ⟨done, hdone⟩ := ms.esSuffix
                have hnod := rel_keys_nodup hwf (ms.vexists cnode ms.cnodeV)
                rw [← hdone] at hnod
                exact nodupB_mem hnod
        have hstep : bfsScan s "__INFINITY__" none true cnode ((t, adj) :: es') visited q =
            bfsScan s "__INFINITY__" none true cnode es'
              (visited ++ [(adj, ⟨cinfo.distance + 1, some cnode, some t⟩)]) (q ++ [adj]) := by
          rw [← hset]
          simp [bfsScan, relAllowed, hv', hc, hadjne, hq]
        rcases ih _ _ ms' with ⟨a, heq, hde⟩ | heq | ⟨v2, q2, heq, ms2, hmeas⟩
        · left
          exact ⟨a, by rw [hstep]; exact heq, hde⟩
        · right; left
          rw [hstep]
          exact heq
        · right; right
          refine ⟨v2, q2, by rw [hstep]; exact heq, ms2, ?_⟩
          have hlen : (q ++ [adj]).length = q.length + 1 := by simp
          have huv := unvis_step db s visited adj ⟨cinfo.distance + 1, some cnode, some t⟩
            hv' hadju
          omega

theorem filter_length_lt {α : Type} (p : α → Bool) {l : List α} {a : α} (ha : a ∈ l)
    (hp : p a = false) : (l.filter p).length < l.length := by
  induction l with
  | nil => simp at ha
  | cons x rest ih =>
    rcases List.mem_cons.mp ha with h1 | h1
    · subst h1
      rw [List.filter_cons_of_neg]
      · have h2 := List.length_filter_le p rest
        simp only [List.length_cons]
        omega
      · simp [hp]
    · by_cases hx : p x = true
      · rw [List.filter_cons_of_pos]
        · simp only [List.length_cons]
          exact Nat.succ_lt_succ (ih h1)
        · exact hx
      · rw [List.filter_cons_of_neg]
        · have h2 := ih h1
          simp only [List.length_cons]
          omega
        · exact hx

theorem hloop_run (db : DB) (s : String) (hwf : wfDB db = true)
    (hsent : noRelToSentinel db = true) :
    ∀ (fuel : Nat) (Q : List String) (visited : VisitMap),
    HInv db s Q visited → 1 + Q.length + unvisCount db s visited ≤ fuel →
    (∃ a, bfsLoop db s "__INFINITY__" none true fuel Q visited =
        TravOut.ok true [PathElem.msg ("Path TBD: Found loop around " ++ a)] ∧
      DoubleEntry db s a) ∨
    bfsLoop db s "__INFINITY__" none true fuel Q visited = TravOut.blocked ∨
    (bfsLoop db s "__INFINITY__" none true fuel Q visited = TravOut.ok false [] ∧
      ∃ vF, s ∈ vkeys vF ∧ ClosedAll db vF) := by
  intro fuel
  induction fuel with
  | zero =>
    intro Q visited hinv hfuel
    omega
  | succ n ih =>
    intro Q visited hinv hfuel
    cases Q with
    | nil =>
      right; right
      refine ⟨rfl, visited, hinv.startv, ?_⟩
      intro u hu r hr
      exact hinv.closed u hu (by simp) r hr
    | cons cnode rest =>
      have hcv : cnode ∈ vkeys visited := hinv.qsub cnode (List.mem_cons_self _ _)
      have hcex : hasKey db cnode = true := hinv.vexists cnode hcv
      have hrels := getRelationships_wf hwf hcex
      have hcnr : cnode ∉ rest := (List.nodup_cons.mp hinv.qnodup).1
      have ms : MS db s cnode (relsOfB db cnode) visited rest := by
        refine ⟨hinv.vnodup, fun x hx => hinv.qsub x (List.mem_cons_of_mem _ hx),
          (List.nodup_cons.mp hinv.qnodup).2, hinv.startv, hinv.vreach, hinv.vuniv,
          hinv.vexists, hcv, hcnr, fun r hr => hr, ⟨[], rfl⟩, fun r hr => Or.inl hr,
          ?_, ?_⟩
        · intro u hu hur huc r hr
          have hnq : u ∉ cnode :: rest := by
            intro hm
            rcases List.mem_cons.mp hm with h1 | h1
            · exact huc h1
            · exact hur h1
          exact hinv.closed u hu hnq r hr
        · intro v hv hvs
          obtain ⟨info, hinfo, p, rn, hpar, hrn, hprel, hpv, hpq⟩ := hinv.parentOk v hv hvs
          refine ⟨info, hinfo, p, rn, hpar, hrn, hprel, hpv, ?_, ?_⟩
          · exact fun hm => hpq (List.mem_cons_of_mem _ hm)
          · intro hpc
            exact absurd (hpc ▸ List.mem_cons_self cnode rest) hpq
      rcases hscan_run db s cnode hwf hsent (relsOfB db cnode) visited rest ms with
        ⟨a, heq, hde⟩ | heq | ⟨v2, q2, heq, ms2, hmeas⟩
      · left
        refine ⟨a, ?_, hde⟩
        simp [bfsLoop, hrels, heq]
      · right; left
        simp [bfsLoop, hrels, heq]
      · have hinv2 : HInv db s q2 v2 := by
          refine ⟨ms2.vnodup, ms2.qsub, ms2.qnodup, ms2.startv, ms2.vreach, ms2.vuniv,
            ms2.vexists, ?_, ?_⟩
          · intro u hu hunq r hr
            by_cases huc : u = cnode
            · subst huc
              rcases ms2.esPart r hr with h1 | h1
              · simp at h1
              · exact h1
            · exact ms2.closedOld u hu hunq huc r hr
          · intro v hv hvs
            obtain ⟨info, hinfo, p, rn, hpar, hrn, hprel, hpv, hpq, -⟩ :=
              ms2.parentOk v hv hvs
            exact ⟨info, hinfo, p, rn, hpar, hrn, hprel, hpv, hpq⟩
        have hfuel2 : 1 + q2.length + unvisCount db s v2 ≤ n := by
          simp only [List.length_cons] at hfuel
          omega
        have hstep : bfsLoop db s "__INFINITY__" none true (n + 1) (cnode :: rest) visited =
            bfsLoop db s "__INFINITY__" none true n q2 v2 := by
          simp [bfsLoop, hrels, heq]
        rcases ih q2 v2 hinv2 hfuel2 with ⟨a, heq2, hde⟩ | heq2 | ⟨heq2, hfin⟩
        · left
          exact ⟨a, by rw [hstep]; exact heq2, hde⟩
        · right; left
          rw [hstep]
          exact heq2
        · right; right
          exact ⟨by rw [hstep]; exact heq2, hfin⟩

theorem hinv_init (db : DB) (s : String) (hs : hasKey db s = true) :
    HInv db s [s] (setKey [] s ⟨0, none, none⟩) := by
  have hvk : vkeys (setKey [] s ⟨0, none, none⟩) = [s] := rfl
  refine ⟨?_, ?_, ?_, ?_, ?_, ?_, ?_, ?_, ?_⟩
  · rw [hvk]; exact List.nodup_singleton s
  · intro x hx; rw [hvk]; exact hx
  · exact List.nodup_singleton s
  · rw [hvk]; exact List.mem_singleton.mpr rfl
  · intro v hv
    rw [hvk, List.mem_singleton] at hv
    subst hv
    exact Reach.refl _
  · intro v hv
    rw [hvk, List.mem_singleton] at hv
    subst hv
    exact start_mem_universe db _
  · intro v hv
    rw [hvk, List.mem_singleton] at hv
    subst hv
    exact hs
  · intro u hu hunq
    rw [hvk, List.mem_singleton] at hu
    exact absurd (hu ▸ List.mem_singleton.mpr rfl) hunq
  · intro v hv hvs
    rw [hvk, List.mem_singleton] at hv
    exact absurd hv hvs

theorem fuel_init (db : DB) (s : String) :
    1 + 1 + unvisCount db s (setKey [] s ⟨0, none, none⟩) ≤ dbFuel db := by
  have h1 : hasKey (setKey ([] : VisitMap) s ⟨0, none, none⟩) s = true := by
    simp [hasKey, setKey, getKey]
  have h2 : (fun x => !(hasKey (setKey ([] : VisitMap) s ⟨0, none, none⟩) x)) s = false := by
    simp [h1]
  have h3 := filter_length_lt
    (fun x => !(hasKey (setKey ([] : VisitMap) s ⟨0, none, none⟩) x))
    (start_mem_universe db s) h2
  have h4 := universe_len_le db s
  unfold unvisCount dbFuel
  omega

theorem cert_reach_mem {db : DB} {s : String} {R : List String}
    (hc : treeCert db s R = true) {v : String} (hr : Reach db none s v) : v ∈ R := by
  have hc2 := hc
  unfold treeCert at hc2
  rw [Bool.and_eq_true, Bool.and_eq_true, Bool.and_eq_true, Bool.and_eq_true] at hc2
  obtain ⟨⟨⟨⟨h1, h2⟩, h3⟩, h4⟩, h5⟩ := hc2
  induction hr with
  | refl => exact List.mem_of_elem_eq_true h2
  | tail t ha hb hcc ih =>
    unfold edgeB at hb
    have hmem := List.mem_of_elem_eq_true hb
    have h3u := (List.all_eq_true.mp h3) _ ih
    have h3e := (List.all_eq_true.mp h3u) _ hmem
    exact List.mem_of_elem_eq_true h3e

theorem cert_no_double {db : DB} {s : String} {R : List String}
    (hc : treeCert db s R = true) {adj : String} (hd : DoubleEntry db s adj) : False := by
  have hc2 := hc
  unfold treeCert at hc2
  rw [Bool.and_eq_true, Bool.and_eq_true, Bool.and_eq_true, Bool.and_eq_true] at hc2
  obtain ⟨⟨⟨⟨h1, h2⟩, h3⟩, h4⟩, h5⟩ := hc2
  rcases hd with ⟨heq, u, t, hru, hmem⟩ | ⟨hne, u₁, t₁, u₂, t₂, hr1, hr2, hm1, hm2, hor⟩
  · have huR := cert_reach_mem hc hru
    have h4u := (List.all_eq_true.mp h4) u huR
    have h4e := (List.all_eq_true.mp h4u) (t, adj) hmem
    rw [heq] at h4e
    simp at h4e
  · have hu1 := cert_reach_mem hc hr1
    have hu2 := cert_reach_mem hc hr2
    have hadjR : adj ∈ R := by
      have h3u := (List.all_eq_true.mp h3) u₁ hu1
      have h3e := (List.all_eq_true.mp h3u) (t₁, adj) hm1
      exact List.mem_of_elem_eq_true h3e
    have hdeg : inEdgeEntries db R adj ≤ 1 := by
      have h5a := (List.all_eq_true.mp h5) adj hadjR
      rw [Bool.or_eq_true] at h5a
      rcases h5a with h6 | h6
      · exact absurd (by simpa using h6) hne
      · exact of_decide_eq_true h6
    have hf1 : 1 ≤ ((relsOfB db u₁).filter (fun r => r.2 == adj)).length := by
      have hm : (t₁, adj) ∈ (relsOfB db u₁).filter (fun r => r.2 == adj) := by
        rw [List.mem_filter]
        exact ⟨hm1, by simp⟩
      exact List.length_pos_of_mem hm
    have hf2 : 1 ≤ ((relsOfB db u₂).filter (fun r => r.2 == adj)).length := by
      have hm : (t₂, adj) ∈ (relsOfB db u₂).filter (fun r => r.2 == adj) := by
        rw [List.mem_filter]
        exact ⟨hm2, by simp⟩
      exact List.length_pos_of_mem hm
    unfold inEdgeEntries at hdeg
    by_cases huu : u₁ = u₂
    · subst huu
      have htne : t₁ ≠ t₂ := by
        rcases hor with h | h
        · exact absurd rfl h
        · exact h
      have h2mem : 2 ≤ ((relsOfB db u₁).filter (fun r => r.2 == adj)).length := by
        apply @two_mem_le_length _ (t₁, adj) (t₂, adj)
        · rw [List.mem_filter]; exact ⟨hm1, by simp⟩
        · rw [List.mem_filter]; exact ⟨hm2, by simp⟩
        · intro he
          exact htne (congrArg Prod.fst he)
      have hsum : ((relsOfB db u₁).filter (fun r => r.2 == adj)).length ≤
          (R.map (fun u => ((relsOfB db u).filter (fun r => r.2 == adj)).length)).sum :=
        mem_le_map_sum (fun u => ((relsOfB db u).filter (fun r => r.2 == adj)).length) hu1
      omega
    · have hsum : ((relsOfB db u₁).filter (fun r => r.2 == adj)).length +
          ((relsOfB db u₂).filter (fun r => r.2 == adj)).length ≤
          (R.map (fun u => ((relsOfB db u).filter (fun r => r.2 == adj)).length)).sum :=
        two_mem_map_sum (fun u => ((relsOfB db u).filter (fun r => r.2 == adj)).length)
          hu1 hu2 huu
      omega

/-- C3 (amended): for every well-formed store none of whose relationships
targets the sentinel, and every existing start node that lies on or can
reach a directed cycle, hasloop answers true, returning the one-element
placeholder message naming the first revisited node, provided the
traversal does not block on its 10000-entry bounded queue. -/
theorem hasloop_finds_reachable_cycle (db : DB) (s : String) (hwf : wfDB db = true)
    (hs : hasKey db s = true) (hsent : noRelToSentinel db = true)
    (hcyc : ∃ v w t, Reach db none s v ∧ edgeB db v t w = true ∧ Reach db none w v)
    (hnb : hasloop db s ≠ TravOut.blocked) :
    ∃ a, hasloop db s = TravOut.ok true [PathElem.msg ("Path TBD: Found loop around " ++ a)] := by
  have hdef : hasloop db s =
      bfsLoop db s "__INFINITY__" none true (dbFuel db) [s] (setKey [] s ⟨0, none, none⟩) := rfl
  rcases hloop_run db s hwf hsent (dbFuel db) [s] (setKey [] s ⟨0, none, none⟩)
      (hinv_init db s hs) (fuel_init db s) with ⟨a, heq, -⟩ | heq | ⟨heq, vF, hsv, hcl⟩
  · exact ⟨a, by rw [hdef, heq]⟩
  · exact absurd (hdef.trans heq) hnb
  · exfalso
    obtain ⟨v, w, t, hrv, hew, hrwv⟩ := hcyc
    have hvmem := reach_mem_of_closed hsv hcl hrv
    have hew2 := hew
    unfold edgeB at hew2
    have hmem := List.mem_of_elem_eq_true hew2
    obtain ⟨hwmem, hlt⟩ := hcl v hvmem (t, w) hmem
    obtain ⟨hle, -⟩ := reach_idx_le_of_closed hcl hrwv hwmem
    unfold vidx at hlt
    have hlt2 : idxIn (vkeys vF) v < idxIn (vkeys vF) w := hlt
    omega

/-- Witness for the amended C3 at the self-loop store. -/
theorem hasloop_finds_reachable_cycle_witness :
    ∃ a, hasloop dbC3 "A" = TravOut.ok true
      [PathElem.msg ("Path TBD: Found loop around " ++ a)] :=
  hasloop_finds_reachable_cycle dbC3 "A" (by decide) (by decide) (by decide)
    ⟨"A", "A", "t", Reach.refl "A", by decide, Reach.refl "A"⟩ (by decide)

/-- C4 (amended): for every well-formed store none of whose relationships
targets the sentinel, and every existing start node whose reachable
subgraph is certified to be a tree rooted at the start (acyclic and with
no node reachable along two distinct relationship entries), hasloop
answers (false, []), provided the traversal does not block on its
10000-entry bounded queue. -/
theorem hasloop_tree_no_loop (db : DB) (s : String) (R : List String)
    (hwf : wfDB db = true) (hs : hasKey db s = true) (hsent : noRelToSentinel db = true)
    (hcert : treeCert db s R = true) (hnb : hasloop db s ≠ TravOut.blocked) :
    hasloop db s = TravOut.ok false [] := by
  have hdef : hasloop db s =
      bfsLoop db s "__INFINITY__" none true (dbFuel db) [s] (setKey [] s ⟨0, none, none⟩) := rfl
  rcases hloop_run db s hwf hsent (dbFuel db) [s] (setKey [] s ⟨0, none, none⟩)
      (hinv_init db s hs) (fuel_init db s) with ⟨a, heq, hde⟩ | heq | ⟨heq, -⟩
  · exact absurd hde (cert_no_double hcert)
  · exact absurd (hdef.trans heq) hnb
  · rw [hdef]
    exact heq

/-- Witness for the amended C4 at a two-node chain store. -/
theorem hasloop_tree_no_loop_witness : hasloop dbW2 "A" = TravOut.ok false [] :=
  hasloop_tree_no_loop dbW2 "A" ["A", "B"] (by decide) (by decide) (by decide)
    (by decide) (by decide)

theorem validPathB_nil {db : DB} {allow : Option (List String)} {a b : String} :
    validPathB db allow a b [] = true ↔ a = b := by
  simp [validPathB]

theorem validPathB_cons {db : DB} {allow : Option (List String)} {sv e a t b : String}
    {rest : List PathElem} :
    validPathB db allow sv e (PathElem.hop a t b :: rest) = true ↔
    a = sv ∧ edgeB db a t b = true ∧ relAllowed allow t = true ∧
      validPathB db allow b e rest = true := by
  simp [validPathB, Bool.and_eq_true, and_assoc]

theorem validPathB_snoc {db : DB} {allow : Option (List String)} {x t y b : String} :
    ∀ {p : List PathElem} {a : String},
    (validPathB db allow a b (p ++ [PathElem.hop x t y]) = true ↔
      validPathB db allow a x p = true ∧ edgeB db x t y = true ∧
        relAllowed allow t = true ∧ y = b) := by
  intro p
  induction p with
  | nil =>
    intro a
    rw [List.nil_append, validPathB_cons, validPathB_nil, validPathB_nil]
    constructor
    · rintro ⟨h1, h2, h3, h4⟩
      exact ⟨h1.symm, h2, h3, h4⟩
    · rintro ⟨h1, h2, h3, h4⟩
      exact ⟨h1.symm, h2, h3, h4⟩
  | cons el p' ih =>
    intro a
    cases el with
    | msg m =>
      constructor
      · intro h; rw [List.cons_append] at h; simp [validPathB] at h
      · rintro ⟨h, -, -, -⟩; simp [validPathB] at h
    | hop a' t' b' =>
      rw [List.cons_append, validPathB_cons, validPathB_cons, ih]
      constructor
      · rintro ⟨h1, h2, h3, h4, h5, h6, h7⟩
        exact ⟨⟨h1, h2, h3, h4⟩, h5, h6, h7⟩
      · rintro ⟨⟨h1, h2, h3, h4⟩, h5, h6, h7⟩
        exact ⟨h1, h2, h3, h4, h5, h6, h7⟩

theorem validPathB_hops {db : DB} {allow : Option (List String)} {b : String} :
    ∀ {p : List PathElem} {a : String}, validPathB db allow a b p = true →
    ∀ el ∈ p, ∃ x t y, el = PathElem.hop x t y := by
  intro p
  induction p with
  | nil => intro a h el hel; simp at hel
  | cons el0 p' ih =>
    intro a h el hel
    cases el0 with
    | msg m => simp [validPathB] at h
    | hop x t y =>
      rcases List.mem_cons.mp hel with h1 | h1
      · exact ⟨x, t, y, h1⟩
      · rw [validPathB_cons] at h
        exact ih h.2.2.2 el h1

theorem validPathB_last_decomp {db : DB} {allow : Option (List String)} {s e : String}
    {q : List PathElem} (hval : validPathB db allow s e q = true) (hne : q ≠ []) :
    ∃ q' x t, q = q' ++ [PathElem.hop x t e] ∧ validPathB db allow s x q' = true ∧
      edgeB db x t e = true ∧ relAllowed allow t = true := by
  have hdec := List.dropLast_append_getLast hne
  obtain ⟨x, t, y, hel⟩ := validPathB_hops hval (q.getLast hne) (List.getLast_mem hne)
  have hqeq : q = q.dropLast ++ [PathElem.hop x t y] := by rw [← hel, hdec]
  rw [hqeq, validPathB_snoc] at hval
  obtain ⟨h1, h2, h3, h4⟩ := hval
  subst h4
  exact ⟨q.dropLast, x, t, hqeq, h1, h2, h3⟩

theorem pathTo_pos {db : DB} {allow : Option (List String)} {s w : String} {n : Nat}
    (h : PathTo db allow s w n) (hne : w ≠ s) : 1 ≤ n := by
  obtain ⟨p, hval, hlen⟩ := h
  cases p with
  | nil =>
    rw [validPathB_nil] at hval
    exact absurd hval.symm hne
  | cons el rest => simp [← hlen]

theorem getPathAux_none (visited : VisitMap) (n : Nat) (v : String) (acc : List PathElem)
    (hg : getKey visited v = none) : getPathAux visited (n + 1) v acc = none := by
  simp only [getPathAux, hg]

theorem getPathAux_parent_none (visited : VisitMap) (n : Nat) (v : String)
    (acc : List PathElem) {info : VisitInfo} (hg : getKey visited v = some info)
    (hp : info.parent = none) : getPathAux visited (n + 1) v acc = some acc := by
  simp only [getPathAux, hg, hp]

theorem getPathAux_rname_none (visited : VisitMap) (n : Nat) (v par : String)
    (acc : List PathElem) {info : VisitInfo} (hg : getKey visited v = some info)
    (hp : info.parent = some par) (hr : info.rname = none) :
    getPathAux visited (n + 1) v acc = none := by
  simp only [getPathAux, hg, hp, hr]

theorem getPathAux_step (visited : VisitMap) (n : Nat) (v par rn : String)
    (acc : List PathElem) {info : VisitInfo} (hg : getKey visited v = some info)
    (hp : info.parent = some par) (hr : info.rname = some rn) :
    getPathAux visited (n + 1) v acc =
      getPathAux visited n par (PathElem.hop par rn v :: acc) := by
  simp only [getPathAux, hg, hp, hr]

theorem getPathAux_fuel_succ {visited : VisitMap} :
    ∀ {f : Nat} {v : String} {acc p : List PathElem},
    getPathAux visited f v acc = some p → getPathAux visited (f + 1) v acc = some p := by
  intro f
  induction f with
  | zero => intro v acc p h; simp [getPathAux] at h
  | succ n ih =>
    intro v acc p h
    cases hg : getKey visited v with
    | none => rw [getPathAux_none _ _ _ _ hg] at h; exact absurd h (by simp)
    | some info =>
      cases hp : info.parent with
      | none =>
        rw [getPathAux_parent_none _ _ _ _ hg hp] at h
        rw [getPathAux_parent_none _ _ _ _ hg hp]
        exact h
      | some par =>
        cases hr : info.rname with
        | none => rw [getPathAux_rname_none _ _ _ _ _ hg hp hr] at h; exact absurd h (by simp)
        | some rn =>
          rw [getPathAux_step _ _ _ _ _ _ hg hp hr] at h
          rw [getPathAux_step _ _ _ _ _ _ hg hp hr]
          exact ih h

theorem getPathAux_append {visited : VisitMap} (kv : String × VisitInfo) :
    ∀ {f : Nat} {v : String} {acc p : List PathElem},
    getPathAux visited f v acc = some p →
    getPathAux (visited ++ [kv]) f v acc = some p := by
  intro f
  induction f with
  | zero => intro v acc p h; simp [getPathAux] at h
  | succ n ih =>
    intro v acc p h
    cases hg : getKey visited v with
    | none => rw [getPathAux_none _ _ _ _ hg] at h; exact absurd h (by simp)
    | some info =>
      have hg2 : getKey (visited ++ [kv]) v = some info := getKey_append_left _ hg
      cases hp : info.parent with
      | none =>
        rw [getPathAux_parent_none _ _ _ _ hg hp] at h
        rw [getPathAux_parent_none _ _ _ _ hg2 hp]
        exact h
      | some par =>
        cases hr : info.rname with
        | none => rw [getPathAux_rname_none _ _ _ _ _ hg hp hr] at h; exact absurd h (by simp)
        | some rn =>
          rw [getPathAux_step _ _ _ _ _ _ hg hp hr] at h
          rw [getPathAux_step _ _ _ _ _ _ hg2 hp hr]
          exact ih h

theorem getPathAux_acc (visited : VisitMap) :
    ∀ (f : Nat) (v : String) (acc : List PathElem),
    getPathAux visited f v acc =
      Option.map (fun p => p ++ acc) (getPathAux visited f v []) := by
  intro f
  induction f with
  | zero => intro v acc; simp [getPathAux]
  | succ n ih =>
    intro v acc
    cases hg : getKey visited v with
    | none => rw [getPathAux_none _ _ _ _ hg, getPathAux_none _ _ _ _ hg]; simp
    | some info =>
      cases hp : info.parent with
      | none =>
        rw [getPathAux_parent_none _ _ _ _ hg hp, getPathAux_parent_none _ _ _ _ hg hp]
        simp
      | some par =>
        cases hr : info.rname with
        | none =>
          rw [getPathAux_rname_none _ _ _ _ _ hg hp hr,
            getPathAux_rname_none _ _ _ _ _ hg hp hr]
          simp
        | some rn =>
          rw [getPathAux_step _ _ _ _ _ _ hg hp hr, getPathAux_step _ _ _ _ _ _ hg hp hr]
          rw [ih par (PathElem.hop par rn v :: acc), ih par [PathElem.hop par rn v]]
          cases getPathAux visited n par [] with
          | none => simp
          | some p => simp

theorem getPath_append_old {visited : VisitMap} {v : String} {p : List PathElem}
    (kv : String × VisitInfo) (h : getPath visited v = some p) :
    getPath (visited ++ [kv]) v = some p := by
  unfold getPath at h ⊢
  rw [List.length_append, List.length_singleton]
  exact getPathAux_fuel_succ (getPathAux_append kv h)

theorem getPath_append_fresh {visited : VisitMap} {adj cnode t : String} {i : VisitInfo}
    {pc : List PathElem} (hnone : getKey visited adj = none)
    (hpar : i.parent = some cnode) (hrn : i.rname = some t)
    (hpc : getPath visited cnode = some pc) :
    getPath (visited ++ [(adj, i)]) adj = some (pc ++ [PathElem.hop cnode t adj]) := by
  unfold getPath
  rw [List.length_append, List.length_singleton]
  have hlook : getKey (visited ++ [(adj, i)]) adj = some i := by
    rw [getKey_append_right _ hnone]
    simp [getKey]
  simp only [getPathAux, hlook, hpar, hrn]
  rw [getPathAux_acc]
  unfold getPath at hpc
  have h2 := getPathAux_append (adj, i) hpc
  rw [h2]
  simp

theorem bms_selfloop_min {db : DB} {allow : Option (List String)} {s cnode : String}
    {d : Nat} {es : List RelKey} {visited : VisitMap} {Q₁ Q₂ : List String}
    (ms : BMS db allow s s cnode d es visited Q₁ Q₂) :
    ∀ q, q ≠ [] → validPathB db allow s s q = true → d + 1 ≤ q.length := by
  intro q hne hval
  obtain ⟨q', x, t', hqeq, hval', hedge, hall⟩ := validPathB_last_decomp hval hne
  have hlen : q.length = q'.length + 1 := by rw [hqeq]; simp
  have hpx : PathTo db allow s x q'.length := ⟨q', hval', rfl⟩
  by_cases hxv : x ∈ vkeys visited
  · obtain ⟨info, hinfo, ⟨hp1, hp2⟩, -⟩ := ms.recv x hxv
    have hxle : info.distance ≤ q'.length := hp2 _ hpx
    have hedge2 := hedge
    unfold edgeB at hedge2
    have hmem := List.mem_of_elem_eq_true hedge2
    by_cases hxq : x ∈ Q₁ ++ Q₂
    · rcases List.mem_append.mp hxq with h1 | h1
      · obtain ⟨i2, hi2, hd2⟩ := ms.lvl1 x h1
        rw [hinfo] at hi2
        have he2 : info = i2 := by injection hi2
        rw [← he2] at hd2
        omega
      · obtain ⟨i2, hi2, hd2⟩ := ms.lvl2 x h1
        rw [hinfo] at hi2
        have he2 : info = i2 := by injection hi2
        rw [← he2] at hd2
        omega
    · by_cases hxc : x = cnode
      · subst hxc
        obtain ⟨ci, hci, hcd⟩ := ms.cdist
        rw [hinfo] at hci
        have he2 : info = ci := by injection hci
        rw [← he2] at hcd
        omega
      · have hcl := ms.closedOld x hxv hxq hxc (t', s) hmem hall
        exact absurd rfl (hcl.2 rfl)
  · have := ms.unvisLB x hxv _ hpx
    omega

theorem bscan2_run (db : DB) (allow : Option (List String)) (s e cnode : String) (d : Nat)
    (hwf : wfDB db = true) :
    ∀ (es : List RelKey) (visited : VisitMap) (Q₁ Q₂ : List String),
    BMS db allow s e cnode d es visited Q₁ Q₂ →
    (∃ p, bfsScan s e allow false cnode es visited (Q₁ ++ Q₂) =
        ScanOut.ret (TravOut.ok true p) ∧
      validPathB db allow s e p = true ∧ 1 ≤ p.length ∧
      ∀ q, q ≠ [] → validPathB db allow s e q = true → p.length ≤ q.length) ∨
    bfsScan s e allow false cnode es visited (Q₁ ++ Q₂) = ScanOut.ret TravOut.blocked ∨
    (∃ visited' Q₂', bfsScan s e allow false cnode es visited (Q₁ ++ Q₂) =
        ScanOut.cont visited' (Q₁ ++ Q₂') ∧ BMS db allow s e cnode d [] visited' Q₁ Q₂' ∧
      (Q₁ ++ Q₂').length + unvisCount db s visited' =
        (Q₁ ++ Q₂).length + unvisCount db s visited) := by
  intro es
  induction es with
  | nil =>
    intro visited Q₁ Q₂ ms
    right; right
    exact ⟨visited, Q₂, rfl, ms, rfl⟩
  | cons ed es' ih =>
    obtain ⟨t, adj⟩ := ed
    intro visited Q₁ Q₂ ms
    have hts : (t, adj) ∈ relsOfB db cnode := ms.esSub (t, adj) (List.mem_cons_self _ _)
    have mkSkip : (∀ r ∈ relsOfB db cnode, relAllowed allow r.1 = true → r = (t, adj) →
        r.2 ∈ vkeys visited ∧ (s = e → r.2 ≠ s)) →
        BMS db allow s e cnode d es' visited Q₁ Q₂ := by
      intro hextra
      refine ⟨ms.vnodup, ms.qsub, ms.qnodup, ms.startv, ms.vexists, ms.vuniv, ms.eNotV,
        ms.recv, ms.cnodeV, ms.cnodeNQ, ms.cdist,
        fun r hr => ms.esSub r (List.mem_cons_of_mem _ hr), ?_, ?_,
        ms.closedOld, ms.lvl1, ms.lvl2, ms.unvisLB, ms.procLE⟩
      · obtain ⟨done, hdone⟩ := ms.esSuffix
        exact ⟨done ++ [(t, adj)], by rw [List.append_assoc]; exact hdone⟩
      · intro r hr hall
        rcases ms.esPart r hr hall with h1 | h1
        · rcases List.mem_cons.mp h1 with h2 | h2
          · exact Or.inr (hextra r hr hall h2)
          · exact Or.inl h2
        · exact Or.inr h1
    by_cases hallow : relAllowed allow t = true
    · by_cases hv : hasKey visited adj = true
      · by_cases h1 : adj = s
        · by_cases h2 : s = e
          · obtain ⟨info, hinfo, hdist, pc, hpc, hpcv, hpcl⟩ := ms.recv cnode ms.cnodeV
            obtain ⟨ci, hci, hcd⟩ := ms.cdist
            rw [hinfo] at hci
            have hic : info = ci := by injection hci
            have hd0 : info.distance = d := by rw [hic]; exact hcd
            have hts2 : (t, s) ∈ relsOfB db cnode := h1 ▸ hts
            have msS : BMS db allow s s cnode d ((t, adj) :: es') visited Q₁ Q₂ := by
              rw [← h2] at ms
              exact ms
            have hvE : hasKey visited e = true := by rw [h1, h2] at hv; exact hv
            left
            refine ⟨pc ++ [PathElem.hop cnode t s], ?_, ?_, ?_, ?_⟩
            · simp [bfsScan, hallow, hv, hvE, h1, h2, hpc]
            · rw [validPathB_snoc]
              exact ⟨hpcv, edgeB_of_mem hts2, hallow, h2⟩
            · simp
            · intro q hne hq
              have hq2 : validPathB db allow s s q = true := by
                rw [← h2] at hq
                exact hq
              have hmin := bms_selfloop_min msS q hne hq2
              have hl : (pc ++ [PathElem.hop cnode t s]).length = info.distance + 1 := by
                simp [hpcl]
              omega
          · have hstep : bfsScan s e allow false cnode ((t, adj) :: es') visited (Q₁ ++ Q₂) =
                bfsScan s e allow false cnode es' visited (Q₁ ++ Q₂) := by
              simp [bfsScan, hallow, hv, h2]
            rw [hstep]
            refine ih visited Q₁ Q₂ (mkSkip ?_)
            intro r hr hall h2'
            rw [h2']
            exact ⟨(hasKey_vkeys _ _).mp hv, fun hse => absurd hse h2⟩
        · have hstep : bfsScan s e allow false cnode ((t, adj) :: es') visited (Q₁ ++ Q₂) =
              bfsScan s e allow false cnode es' visited (Q₁ ++ Q₂) := by
            simp [bfsScan, hallow, hv, h1]
          rw [hstep]
          refine ih visited Q₁ Q₂ (mkSkip ?_)
          intro r hr hall h2'
          rw [h2']
          exact ⟨(hasKey_vkeys _ _).mp hv, fun _ => h1⟩
      · have hv' : hasKey visited adj = false := by
          cases hvv : hasKey visited adj
          · rfl
          · exact absurd hvv hv
        obtain ⟨info0, hinfo0, hdist0, pc, hpc, hpcv, hpcl⟩ := ms.recv cnode ms.cnodeV
        obtain ⟨ci, hci, hcd⟩ := ms.cdist
        rw [hinfo0] at hci
        have hic : info0 = ci := by injection hci
        have hd0 : info0.distance = d := by rw [hic]; exact hcd
        have hadjnv : adj ∉ vkeys visited := by
          intro hm
          have h3 := (hasKey_vkeys visited adj).mpr hm
          rw [hv'] at h3
          exact absurd h3 (by decide)
        have hnone : getKey visited adj = none := by
          cases hg : getKey visited adj with
          | none => rfl
          | some w => simp [hasKey, hg] at hv'
        have hadjq : adj ∉ Q₁ ++ Q₂ := fun hm => hadjnv (ms.qsub adj hm)
        have hcadj : cnode ≠ adj := fun he => hadjnv (he ▸ ms.cnodeV)
        have hadjs : adj ≠ s := fun he => hadjnv (he ▸ ms.startv)
        obtain ⟨nd, hnd⟩ := Option.isSome_iff_exists.mp (ms.vexists cnode ms.cnodeV)
        have hadju : adj ∈ bfsUniverse db s := mem_universe_of_allDsts s (mem_allDsts hnd hts)
        have hadjex : hasKey db adj = true := rel_dst_exists hwf (ms.vexists cnode ms.cnodeV) hts
        have hgp : getPath (visited ++ [(adj, ⟨info0.distance + 1, some cnode, some t⟩)]) adj =
            some (pc ++ [PathElem.hop cnode t adj]) :=
          getPath_append_fresh hnone rfl rfl hpc
        by_cases hae : adj = e
        · subst hae
          left
          refine ⟨pc ++ [PathElem.hop cnode t adj], ?_, ?_, ?_, ?_⟩
          · rw [show bfsScan s adj allow false cnode ((t, adj) :: es') visited (Q₁ ++ Q₂) =
                ScanOut.ret (TravOut.ok true (pc ++ [PathElem.hop cnode t adj])) from ?_]
            simp [bfsScan, hallow, hv', hinfo0, setKey_fresh _ _ _ hv', hgp]
          · rw [validPathB_snoc]
            exact ⟨hpcv, edgeB_of_mem hts, hallow, rfl⟩
          · simp
          · intro q hne hq
            have hpt : PathTo db allow s adj q.length := ⟨q, hq, rfl⟩
            have hlb := ms.unvisLB adj hadjnv _ hpt
            have hl : (pc ++ [PathElem.hop cnode t adj]).length = info0.distance + 1 := by
              simp [hpcl]
            omega
        · by_cases hfull : (Q₁ ++ Q₂).length = queueMax
          · right; left
            have hfull2 : Q₁.length + Q₂.length = queueMax := by simpa using hfull
            simp [bfsScan, hallow, hv', hinfo0, hae, hfull, hfull2]
          · have hfull2 : ¬(Q₁.length + Q₂.length = queueMax) := by simpa using hfull
            have hstep : bfsScan s e allow false cnode ((t, adj) :: es') visited (Q₁ ++ Q₂) =
                bfsScan s e allow false cnode es'
                  (visited ++ [(adj, ⟨info0.distance + 1, some cnode, some t⟩)])
                  ((Q₁ ++ Q₂) ++ [adj]) := by
              rw [← setKey_fresh _ _ _ hv']
              simp [bfsScan, hallow, hv', hinfo0, hae, hfull, hfull2]
            have ms' : BMS db allow s e cnode d es'
                (visited ++ [(adj, ⟨info0.distance + 1, some cnode, some t⟩)])
                Q₁ (Q₂ ++ [adj]) := by
              refine ⟨?_, ?_, ?_, ?_, ?_, ?_, ?_, ?_, ?_, ?_, ?_, ?_, ?_, ?_, ?_, ?_, ?_,
                ?_, ?_⟩
              · rw [vkeys_append]
                exact nodup_append_single ms.vnodup hadjnv
              · intro x hx
                rw [vkeys_append]
                rw [← List.append_assoc] at hx
                rcases List.mem_append.mp hx with h3 | h3
                · exact List.mem_append_left _ (ms.qsub x h3)
                · exact List.mem_append_right _ h3
              · rw [← List.append_assoc]
                exact nodup_append_single ms.qnodup hadjq
              · rw [vkeys_append]
                exact List.mem_append_left _ ms.startv
              · intro v hv2
                rw [vkeys_append] at hv2
                rcases List.mem_append.mp hv2 with h3 | h3
                · exact ms.vexists v h3
                · rw [List.mem_singleton] at h3
                  exact h3 ▸ hadjex
              · intro v hv2
                rw [vkeys_append] at hv2
                rcases List.mem_append.mp hv2 with h3 | h3
                · exact ms.vuniv v h3
                · rw [List.mem_singleton] at h3
                  exact h3 ▸ hadju
              · intro hes
                rw [vkeys_append]
                intro hm
                rcases List.mem_append.mp hm with h3 | h3
                · exact ms.eNotV hes h3
                · rw [List.mem_singleton] at h3
                  exact hae h3.symm
              · intro v hv2
                rw [vkeys_append] at hv2
                rcases List.mem_append.mp hv2 with h3 | h3
                · obtain ⟨info, hinfo, hdist, p, hp, hpv, hpl⟩ := ms.recv v h3
                  exact ⟨info, getKey_append_left _ hinfo, hdist, p,
                    getPath_append_old _ hp, hpv, hpl⟩
                · rw [List.mem_singleton] at h3
                  subst h3
                  refine ⟨⟨info0.distance + 1, some cnode, some t⟩, ?_, ?_, ?_⟩
                  · rw [getKey_append_right _ hnone]
                    simp [getKey]
                  · constructor
                    · refine ⟨pc ++ [PathElem.hop cnode t v], ?_, by simp [hpcl]⟩
                      rw [validPathB_snoc]
                      exact ⟨hpcv, edgeB_of_mem hts, hallow, rfl⟩
                    · intro m hm2
                      have hlb := ms.unvisLB v hadjnv _ hm2
                      show info0.distance + 1 ≤ m
                      omega
                  · exact ⟨pc ++ [PathElem.hop cnode t v], hgp, by
                      rw [validPathB_snoc]
                      exact ⟨hpcv, edgeB_of_mem hts, hallow, rfl⟩, by simp [hpcl]⟩
              · rw [vkeys_append]
                exact List.mem_append_left _ ms.cnodeV
              · rw [← List.append_assoc]
                intro hm
                rcases List.mem_append.mp hm with h3 | h3
                · exact ms.cnodeNQ h3
                · rw [List.mem_singleton] at h3
                  exact hcadj h3
              · exact ⟨info0, getKey_append_left _ hinfo0, hd0⟩
              · exact fun r hr => ms.esSub r (List.mem_cons_of_mem _ hr)
              · obtain ⟨done, hdone⟩ := ms.esSuffix
                exact ⟨done ++ [(t, adj)], by rw [List.append_assoc]; exact hdone⟩
              · intro r hr hall
                rcases ms.esPart r hr hall with h3 | h3
                · rcases List.mem_cons.mp h3 with h4 | h4
                  · right
                    rw [h4]
                    constructor
                    · rw [vkeys_append]
                      exact List.mem_append_right _ (List.mem_singleton.mpr rfl)
                    · exact fun _ => hadjs
                  · exact Or.inl h4
                · right
                  refine ⟨?_, h3.2⟩
                  rw [vkeys_append]
                  exact List.mem_append_left _ h3.1
              · intro u hu hunq hunc r hr hall
                have huq : u ∉ Q₁ ++ Q₂ := by
                  intro hm
                  apply hunq
                  rw [← List.append_assoc]
                  exact List.mem_append_left _ hm
                have hu2 : u ∈ vkeys visited := by
                  rw [vkeys_append] at hu
                  rcases List.mem_append.mp hu with h3 | h3
                  · exact h3
                  · rw [List.mem_singleton] at h3
                    subst h3
                    exact absurd (by
                      rw [← List.append_assoc]
                      exact List.mem_append_right _ (List.mem_singleton.mpr rfl)) hunq
                obtain ⟨h4, h5⟩ := ms.closedOld u hu2 huq hunc r hr hall
                refine ⟨?_, h5⟩
                rw [vkeys_append]
                exact List.mem_append_left _ h4
              · intro x hx
                obtain ⟨i2, hi2, hd2⟩ := ms.lvl1 x hx
                exact ⟨i2, getKey_append_left _ hi2, hd2⟩
              · intro x hx
                rcases List.mem_append.mp hx with h3 | h3
                · obtain ⟨i2, hi2, hd2⟩ := ms.lvl2 x h3
                  exact ⟨i2, getKey_append_left _ hi2, hd2⟩
                · rw [List.mem_singleton] at h3
                  subst h3
                  refine ⟨⟨info0.distance + 1, some cnode, some t⟩, ?_, ?_⟩
                  · rw [getKey_append_right _ hnone]
                    simp [getKey]
                  · simp [hd0]
              · intro w hw n hn
                apply ms.unvisLB w _ n hn
                intro hm
                apply hw
                rw [vkeys_append]
                exact List.mem_append_left _ hm
              · intro u hu hunq hunc
                have huq : u ∉ Q₁ ++ Q₂ := by
                  intro hm
                  apply hunq
                  rw [← List.append_assoc]
                  exact List.mem_append_left _ hm
                have hu2 : u ∈ vkeys visited := by
                  rw [vkeys_append] at hu
                  rcases List.mem_append.mp hu with h3 | h3
                  · exact h3
                  · rw [List.mem_singleton] at h3
                    subst h3
                    exact absurd (by
                      rw [← List.append_assoc]
                      exact List.mem_append_right _ (List.mem_singleton.mpr rfl)) hunq
                obtain ⟨i2, hi2, hd2⟩ := ms.procLE u hu2 huq hunc
                exact ⟨i2, getKey_append_left _ hi2, hd2⟩
            rcases ih _ Q₁ (Q₂ ++ [adj]) ms' with h | h | ⟨v2, q2, heq, ms2, hm⟩
            · left
              obtain ⟨p, heq, hrest⟩ := h
              refine ⟨p, ?_, hrest⟩
              rw [hstep, List.append_assoc]
              exact heq
            · right; left
              rw [hstep, List.append_assoc]
              exact h
            · right; right
              refine ⟨v2, q2, ?_, ms2, ?_⟩
              · rw [hstep, List.append_assoc]
                exact heq
              · have hlen : (Q₁ ++ (Q₂ ++ [adj])).length = (Q₁ ++ Q₂).length + 1 := by
                  simp only [List.length_append, List.length_singleton]
                  omega
                have huv := unvis_step db s visited adj ⟨info0.distance + 1, some cnode, some t⟩
                  hv' hadju
                omega
    · have hallow' : relAllowed allow t = false := by
        cases h : relAllowed allow t
        · rfl
        · exact absurd h hallow
      have hstep : bfsScan s e allow false cnode ((t, adj) :: es') visited (Q₁ ++ Q₂) =
          bfsScan s e allow false cnode es' visited (Q₁ ++ Q₂) := by
        simp [bfsScan, hallow']
      rw [hstep]
      refine ih visited Q₁ Q₂ (mkSkip ?_)
      intro r hr hall h2'
      rw [h2'] at hall
      rw [hallow'] at hall
      exact absurd hall (by decide)

theorem bloop2_run (db : DB) (allow : Option (List String)) (s e : String)
    (hwf : wfDB db = true) :
    ∀ (fuel : Nat) (Q : List String) (visited : VisitMap),
    BInv db allow s e Q visited → 1 + Q.length + unvisCount db s visited ≤ fuel →
    (∃ p, bfsLoop db s e allow false fuel Q visited = TravOut.ok true p ∧
      validPathB db allow s e p = true ∧ 1 ≤ p.length ∧
      ∀ q, q ≠ [] → validPathB db allow s e q = true → p.length ≤ q.length) ∨
    bfsLoop db s e allow false fuel Q visited = TravOut.blocked ∨
    (bfsLoop db s e allow false fuel Q visited = TravOut.ok false [] ∧
      ∃ vF, s ∈ vkeys vF ∧ (e ≠ s → e ∉ vkeys vF) ∧
        ∀ u ∈ vkeys vF, ∀ r ∈ relsOfB db u, relAllowed allow r.1 = true →
          r.2 ∈ vkeys vF ∧ (s = e → r.2 ≠ s)) := by
  intro fuel
  induction fuel with
  | zero =>
    intro Q visited hinv hfuel
    omega
  | succ n ih =>
    intro Q visited hinv hfuel
    cases Q with
    | nil =>
      right; right
      refine ⟨rfl, visited, hinv.startv, hinv.eNotV, ?_⟩
      intro u hu r hr hall
      exact hinv.closedB u hu (by simp) r hr hall
    | cons cnode rest =>
      obtain ⟨d, Q₁, Q₂, hqeq, hQ1ne, hl1, hl2, hunv, hproc⟩ := hinv.qlevels
      cases Q₁ with
      | nil =>
        have h0 := hQ1ne (by simp)
        exact absurd rfl h0
      | cons q1h Q₁p =>
        rw [List.cons_append] at hqeq
        have hch : cnode = q1h := by injection hqeq
        have hrest : rest = Q₁p ++ Q₂ := by injection hqeq
        subst hch
        subst hrest
        have hcv : cnode ∈ vkeys visited := hinv.qsub cnode (List.mem_cons_self _ _)
        have hcex : hasKey db cnode = true := hinv.vexists cnode hcv
        have hrels := getRelationships_wf hwf hcex
        have hnd := List.nodup_cons.mp hinv.qnodup
        have hcd : ∃ i, getKey visited cnode = some i ∧ i.distance = d :=
          hl1 cnode (List.mem_cons_self _ _)
        have ms : BMS db allow s e cnode d (relsOfB db cnode) visited Q₁p Q₂ := by
          refine ⟨hinv.vnodup, ?_, hnd.2, hinv.startv, hinv.vexists, hinv.vuniv,
            hinv.eNotV, hinv.recv, hcv, hnd.1, hcd, fun r hr => hr, ⟨[], rfl⟩,
            fun r hr hall => Or.inl hr, ?_, ?_, hl2, hunv, ?_⟩
          · intro x hx
            exact hinv.qsub x (List.mem_cons_of_mem _ hx)
          · intro u hu hunq hunc r hr hall
            refine hinv.closedB u hu ?_ r hr hall
            intro hm
            rcases List.mem_cons.mp hm with h1 | h1
            · exact hunc h1
            · exact hunq h1
          · intro x hx
            exact hl1 x (List.mem_cons_of_mem _ hx)
          · intro u hu hunq hunc
            refine hproc u hu ?_
            intro hm
            rcases List.mem_cons.mp hm with h1 | h1
            · exact hunc h1
            · exact hunq h1
        rcases bscan2_run db allow s e cnode d hwf (relsOfB db cnode) visited Q₁p Q₂ ms with
          ⟨p, heq, hval, hlen1, hmin⟩ | heq | ⟨v2, q2, heq, ms2, hmeas⟩
        · left
          refine ⟨p, ?_, hval, hlen1, hmin⟩
          simp [bfsLoop, hrels, heq]
        · right; left
          simp [bfsLoop, hrels, heq]
        · have hclosed2 : ∀ u ∈ vkeys v2, u ∉ Q₁p ++ q2 → ∀ r ∈ relsOfB db u,
              relAllowed allow r.1 = true → r.2 ∈ vkeys v2 ∧ (s = e → r.2 ≠ s) := by
            intro u hu hunq r hr hall
            by_cases huc : u = cnode
            · subst huc
              rcases ms2.esPart r hr hall with h1 | h1
              · simp at h1
              · exact h1
            · exact ms2.closedOld u hu hunq huc r hr hall
          have hql : ∃ d2 R₁ R₂, Q₁p ++ q2 = R₁ ++ R₂ ∧ (Q₁p ++ q2 ≠ [] → R₁ ≠ []) ∧
              (∀ x ∈ R₁, ∃ i, getKey v2 x = some i ∧ i.distance = d2) ∧
              (∀ x ∈ R₂, ∃ i, getKey v2 x = some i ∧ i.distance = d2 + 1) ∧
              (∀ w, w ∉ vkeys v2 → ∀ m, PathTo db allow s w m → d2 + 1 ≤ m) ∧
              (∀ u ∈ vkeys v2, u ∉ Q₁p ++ q2 →
                ∃ i, getKey v2 u = some i ∧ i.distance ≤ d2) := by
            by_cases hq1 : Q₁p = []
            · refine ⟨d + 1, q2, [], by rw [hq1]; simp, ?_, ms2.lvl2, ?_, ?_, ?_⟩
              · intro hne2
                rw [hq1, List.nil_append] at hne2
                exact hne2
              · intro x hx
                exact absurd hx (List.not_mem_nil x)
              · intro w hw m hp
                have hge := ms2.unvisLB w hw m hp
                by_cases hm : m = d + 1
                · exfalso
                  subst hm
                  obtain ⟨p, hpv, hpl⟩ := hp
                  have hpne : p ≠ [] := by
                    intro h0
                    rw [h0] at hpl
                    simp only [List.length_nil] at hpl
                    omega
                  obtain ⟨p', x, t', hdec, hval', hedge, hall⟩ :=
                    validPathB_last_decomp hpv hpne
                  have hpl' : p'.length = d := by
                    rw [hdec] at hpl
                    simp only [List.length_append, List.length_singleton] at hpl
                    omega
                  have hpx : PathTo db allow s x p'.length := ⟨p', hval', rfl⟩
                  have hxv : x ∈ vkeys v2 := by
                    by_contra hxnv
                    have h2 := ms2.unvisLB x hxnv _ hpx
                    omega
                  obtain ⟨info, hinfo, ⟨hp1, hp2⟩, -⟩ := ms2.recv x hxv
                  have hxle : info.distance ≤ p'.length := hp2 _ hpx
                  have hxq : x ∉ Q₁p ++ q2 := by
                    intro hmem
                    rw [hq1, List.nil_append] at hmem
                    obtain ⟨i2, hi2, hd2⟩ := ms2.lvl2 x hmem
                    rw [hinfo] at hi2
                    have hii : info = i2 := by injection hi2
                    rw [← hii] at hd2
                    omega
                  have hedge2 := hedge
                  unfold edgeB at hedge2
                  have hmem2 := List.mem_of_elem_eq_true hedge2
                  have hwv := (hclosed2 x hxv hxq (t', w) hmem2 hall).1
                  exact hw hwv
                · omega
              · intro u hu hunq
                by_cases huc : u = cnode
                · subst huc
                  obtain ⟨ci, hci, hcd2⟩ := ms2.cdist
                  exact ⟨ci, hci, by omega⟩
                · obtain ⟨i2, hi2, hd2⟩ := ms2.procLE u hu hunq huc
                  exact ⟨i2, hi2, by omega⟩
            · refine ⟨d, Q₁p, q2, rfl, fun _ => hq1, ms2.lvl1, ms2.lvl2, ms2.unvisLB, ?_⟩
              intro u hu hunq
              by_cases huc : u = cnode
              · subst huc
                obtain ⟨ci, hci, hcd2⟩ := ms2.cdist
                exact ⟨ci, hci, by omega⟩
              · obtain ⟨i2, hi2, hd2⟩ := ms2.procLE u hu hunq huc
                exact ⟨i2, hi2, by omega⟩
          have hinv2 : BInv db allow s e (Q₁p ++ q2) v2 :=
            ⟨ms2.vnodup, ms2.qsub, ms2.qnodup, ms2.startv, ms2.vexists, ms2.vuniv,
             ms2.eNotV, ms2.recv, hclosed2, hql⟩
          have hstep : bfsLoop db s e allow false (n + 1) (cnode :: (Q₁p ++ Q₂)) visited =
              bfsLoop db s e allow false n (Q₁p ++ q2) v2 := by
            simp [bfsLoop, hrels, heq]
          have hfuel2 : 1 + (Q₁p ++ q2).length + unvisCount db s v2 ≤ n := by
            simp only [List.length_cons, List.length_append] at hfuel hmeas ⊢
            omega
          rcases ih (Q₁p ++ q2) v2 hinv2 hfuel2 with ⟨p, heq2, hrest2⟩ | heq2 | ⟨heq2, hfin⟩
          · left
            exact ⟨p, by rw [hstep]; exact heq2, hrest2⟩
          · right; left
            rw [hstep]
            exact heq2
          · right; right
            exact ⟨by rw [hstep]; exact heq2, hfin⟩

theorem binv_init (db : DB) (allow : Option (List String)) (s e : String)
    (hs : hasKey db s = true) :
    BInv db allow s e [s] (setKey [] s ⟨0, none, none⟩) := by
  have hvk : vkeys (setKey [] s ⟨0, none, none⟩) = [s] := rfl
  have hg : getKey (setKey ([] : VisitMap) s ⟨0, none, none⟩) s =
      some ⟨0, none, none⟩ := getKey_setKey_self _ _ _
  refine ⟨?_, ?_, ?_, ?_, ?_, ?_, ?_, ?_, ?_, ?_⟩
  · rw [hvk]
    exact List.nodup_singleton s
  · intro x hx
    rw [hvk]
    exact hx
  · exact List.nodup_singleton s
  · rw [hvk]
    exact List.mem_singleton.mpr rfl
  · intro v hv
    rw [hvk, List.mem_singleton] at hv
    subst hv
    exact hs
  · intro v hv
    rw [hvk, List.mem_singleton] at hv
    subst hv
    exact start_mem_universe db _
  · intro hes
    rw [hvk]
    intro hm
    rw [List.mem_singleton] at hm
    exact hes hm
  · intro v hv
    rw [hvk, List.mem_singleton] at hv
    subst hv
    refine ⟨⟨0, none, none⟩, hg, ⟨⟨[], validPathB_nil.mpr rfl, rfl⟩,
      fun m hm => Nat.zero_le m⟩, [], ?_, validPathB_nil.mpr rfl, rfl⟩
    unfold getPath
    exact getPathAux_parent_none _ 0 _ [] hg rfl
  · intro u hu hunq r hr hall
    rw [hvk] at hu
    exact absurd hu hunq
  · refine ⟨0, [s], [], rfl, fun h => h, ?_, ?_, ?_, ?_⟩
    · intro x hx
      rw [List.mem_singleton] at hx
      subst hx
      exact ⟨⟨0, none, none⟩, hg, rfl⟩
    · intro x hx
      exact absurd hx (List.not_mem_nil x)
    · intro w hw m hm
      have hws : w ≠ s := by
        intro h0
        rw [hvk] at hw
        exact hw (h0 ▸ List.mem_singleton.mpr rfl)
      have h1 := pathTo_pos hm hws
      omega
    · intro u hu hunq
      rw [hvk] at hu
      exact absurd hu hunq

theorem path_closed_mem {db : DB} {allow : Option (List String)} {vF : VisitMap}
    {s e : String}
    (hclosed : ∀ u ∈ vkeys vF, ∀ r ∈ relsOfB db u, relAllowed allow r.1 = true →
      r.2 ∈ vkeys vF ∧ (s = e → r.2 ≠ s)) :
    ∀ (q : List PathElem) (a b : String), a ∈ vkeys vF →
      validPathB db allow a b q = true → b ∈ vkeys vF := by
  intro q
  induction q with
  | nil =>
    intro a b ha hv
    rw [validPathB_nil] at hv
    exact hv ▸ ha
  | cons el rest ih =>
    intro a b ha hv
    cases el with
    | msg m => simp [validPathB] at hv
    | hop x t y =>
      rw [validPathB_cons] at hv
      obtain ⟨h1, h2, h3, h4⟩ := hv
      have hxa : x ∈ vkeys vF := by
        rw [h1]
        exact ha
      have hedge2 := h2
      unfold edgeB at hedge2
      have hmem := List.mem_of_elem_eq_true hedge2
      exact ih y b ((hclosed x hxa (t, y) hmem h3).1) h4

theorem traverse_eq_bfs (db : DB) (s e : String) (allow : Option (List String))
    (hs : hasKey db s = true) (he : hasKey db e = true) :
    traverse db s e allow "BFS" =
      bfsLoop db s e allow false (dbFuel db) [s] (setKey [] s ⟨0, none, none⟩) := by
  have h1 : traverse db s e allow "BFS" =
      if hasKey db s && hasKey db e then
        bfsLoop db s e allow false (dbFuel db) [s] (setKey [] s ⟨0, none, none⟩)
      else TravOut.err (Err.traverseNodesNotFound s e) := rfl
  rw [h1, hs, he]
  rfl

/-- C2: on a well-formed store containing both endpoints, if some nonempty
path from start to end along allowed relationship names exists and the run
does not block on the 10000-entry bounded queue, traverse with the BFS
algorithm returns (true, p) where p is a valid allowed path from start to
end whose hop count is minimal among all nonempty valid allowed paths. -/
theorem traverse_bfs_shortest (db : DB) (s e : String) (allow : Option (List String))
    (hwf : wfDB db = true) (hs : hasKey db s = true) (he : hasKey db e = true)
    (hpath : ∃ q, q ≠ [] ∧ validPathB db allow s e q = true)
    (hnb : traverse db s e allow "BFS" ≠ TravOut.blocked) :
    ∃ p, traverse db s e allow "BFS" = TravOut.ok true p ∧
      validPathB db allow s e p = true ∧ 1 ≤ p.length ∧
      ∀ q, q ≠ [] → validPathB db allow s e q = true → p.length ≤ q.length := by
  have htr : traverse db s e allow "BFS" =
      bfsLoop db s e allow false (dbFuel db) [s] (setKey [] s ⟨0, none, none⟩) :=
    traverse_eq_bfs db s e allow hs he
  rcases bloop2_run db allow s e hwf (dbFuel db) [s] (setKey [] s ⟨0, none, none⟩)
      (binv_init db allow s e hs) (fuel_init db s) with
    ⟨p, heq, hval, hlen1, hmin⟩ | heq | ⟨heq, vF, hsv, henot, hclosed⟩
  · exact ⟨p, by rw [htr]; exact heq, hval, hlen1, hmin⟩
  · exact absurd (by rw [htr]; exact heq) hnb
  · exfalso
    obtain ⟨q, hqne, hqval⟩ := hpath
    by_cases hse : s = e
    · obtain ⟨q', x, t', hdec, hval', hedge, hall⟩ := validPathB_last_decomp hqval hqne
      have hxv : x ∈ vkeys vF := path_closed_mem hclosed q' s x hsv hval'
      have hedge2 := hedge
      unfold edgeB at hedge2
      have hmem := List.mem_of_elem_eq_true hedge2
      have h2 := (hclosed x hxv (t', e) hmem hall).2 hse
      exact h2 hse.symm
    · have hev : e ∈ vkeys vF := path_closed_mem hclosed q s e hsv hqval
      exact henot (fun h0 => hse h0.symm) hev

theorem traverse_bfs_shortest_witness :
    wfDB dbW2 = true ∧
    (∃ p, traverse dbW2 "A" "B" none "BFS" = TravOut.ok true p ∧
      validPathB dbW2 none "A" "B" p = true ∧ 1 ≤ p.length ∧
      ∀ q, q ≠ [] → validPathB dbW2 none "A" "B" q = true → p.length ≤ q.length) :=
  ⟨by decide, traverse_bfs_shortest dbW2 "A" "B" none (by decide) (by decide) (by decide)
    ⟨[PathElem.hop "A" "t" "B"], by decide, by decide⟩
    (fun h => TravOut.noConfusion ((by decide : traverse dbW2 "A" "B" none "BFS" =
      TravOut.ok true [PathElem.hop "A" "t" "B"]).symm.trans h))⟩

theorem leafName_injective {i j : Nat} (h : leafName i = leafName j) : i = j := by
  unfold leafName at h
  have h2 : List.replicate (i + 1) 'l' = List.replicate (j + 1) 'l' := by injection h
  have h3 := congrArg List.length h2
  simp only [List.length_replicate] at h3
  omega

theorem leafName_ne_S (i : Nat) : leafName i ≠ "S" := by
  intro h
  have h2 : (leafName i).data = String.data "S" := congrArg String.data h
  unfold leafName at h2
  have h3 : 'l' :: List.replicate i 'l' = ['S'] := h2
  have h4 : 'l' = 'S' := by injection h3
  exact absurd h4 (by decide)

theorem leafName_ne_E (i : Nat) : leafName i ≠ "E" := by
  intro h
  have h2 : (leafName i).data = String.data "E" := congrArg String.data h
  unfold leafName at h2
  have h3 : 'l' :: List.replicate i 'l' = ['E'] := h2
  have h4 : 'l' = 'E' := by injection h3
  exact absurd h4 (by decide)

theorem starEdges_mem {r : RelKey} (h : r ∈ starEdges) : ∃ i, r = ("t", leafName i) := by
  unfold starEdges at h
  obtain ⟨i, hi, heq⟩ := List.mem_map.mp h
  exact ⟨i, heq.symm⟩

theorem starEdges_dsts_nodup : (starEdges.map (fun r => r.2)).Nodup := by
  have h1 : starEdges.map (fun r => r.2) = (List.range 10001).map leafName := by
    unfold starEdges
    rw [List.map_map]
    rfl
  rw [h1]
  exact (List.nodup_range 10001).map (fun a b h => leafName_injective h)

theorem starEdges_len : starEdges.length = 10001 := by
  unfold starEdges
  simp

theorem bscan_blocks (s e cnode : String) (allow : Option (List String)) :
    ∀ (es : List RelKey) (visited : VisitMap) (q : List String),
    (∃ ci, getKey visited cnode = some ci) →
    (∀ r ∈ es, relAllowed allow r.1 = true ∧ hasKey visited r.2 = false ∧ r.2 ≠ e) →
    (es.map (fun r => r.2)).Nodup →
    queueMax < q.length + es.length →
    q.length ≤ queueMax →
    bfsScan s e allow false cnode es visited q = ScanOut.ret TravOut.blocked := by
  intro es
  induction es with
  | nil =>
    intro visited q hci hfr hnd hbig hle
    simp only [List.length_nil] at hbig
    omega
  | cons ed es' ih =>
    obtain ⟨t, adj⟩ := ed
    intro visited q hci hfr hnd hbig hle
    obtain ⟨ci, hci2⟩ := hci
    obtain ⟨hall, hfresh, hne⟩ := hfr (t, adj) (List.mem_cons_self _ _)
    have hnd' : (adj :: es'.map (fun r => r.2)).Nodup := hnd
    have hnd2 := List.nodup_cons.mp hnd'
    by_cases hfull : q.length = queueMax
    · simp [bfsScan, hall, hfresh, hci2, hne, hfull]
    · have hstep : bfsScan s e allow false cnode ((t, adj) :: es') visited q =
          bfsScan s e allow false cnode es'
            (setKey visited adj ⟨ci.distance + 1, some cnode, some t⟩) (q ++ [adj]) := by
        simp [bfsScan, hall, hfresh, hci2, hne, hfull]
      rw [hstep, setKey_fresh _ _ _ hfresh]
      apply ih
      · exact ⟨ci, getKey_append_left _ hci2⟩
      · intro r hr
        obtain ⟨ha2, hf2, hn2⟩ := hfr r (List.mem_cons_of_mem _ hr)
        refine ⟨ha2, ?_, hn2⟩
        have hradj : r.2 ≠ adj := by
          intro h0
          exact hnd2.1 (h0 ▸ List.mem_map.mpr ⟨r, hr, rfl⟩)
        rw [hasKey_append_single_ne _ _ _ _ hradj]
        exact hf2
      · exact hnd2.2
      · simp only [List.length_append, List.length_singleton, List.length_cons] at hbig ⊢
        omega
      · simp only [List.length_append, List.length_singleton]
        omega

theorem starDB_S_rels : getRelationships starDB "S" = Except.ok starEdges := by
  have h1 : getKey starDB "S" = some [("__rels", PVal.relDict
      ((List.range 10001).map (fun i => (("t", leafName i), ([] : PropMap)))))] := rfl
  simp [getRelationships, h1, nodeRels, getKey, starEdges, List.map_map]

theorem bfsLoop_step (db : DB) (s e : String) (allow : Option (List String)) (h : Bool)
    (n : Nat) (cnode : String) (qrest : List String) (visited : VisitMap)
    (rels : List RelKey) (out : TravOut)
    (hrels : getRelationships db cnode = Except.ok rels)
    (hscan : bfsScan s e allow h cnode rels visited qrest = ScanOut.ret out) :
    bfsLoop db s e allow h (n + 1) (cnode :: qrest) visited = out := by
  simp [bfsLoop, hrels, hscan]

/-- C2 (counterexample): on the star store a two-hop path from S to E
exists, yet traverse with the BFS algorithm never answers: scanning S's
10001 relationships enqueues one fresh leaf per entry, and the 10001st put
finds the 10000-entry bounded queue full and blocks forever. -/
theorem traverse_bfs_blocks_on_large_store :
    validPathB starDB none "S" "E"
      [PathElem.hop "S" "t" (leafName 0), PathElem.hop (leafName 0) "t" "E"] = true ∧
    traverse starDB "S" "E" none "BFS" = TravOut.blocked := by
  have hrels0 : relsOfB starDB "S" = starEdges := by
    unfold relsOfB
    rw [starDB_S_rels]
  have hmem0 : ("t", leafName 0) ∈ starEdges := by
    unfold starEdges
    exact List.mem_map.mpr ⟨0, List.mem_range.mpr (by decide), rfl⟩
  have hedge1 : edgeB starDB "S" "t" (leafName 0) = true := by
    apply edgeB_of_mem
    rw [hrels0]
    exact hmem0
  have hedge2 : edgeB starDB (leafName 0) "t" "E" = true := by decide
  constructor
  · rw [validPathB_cons]
    refine ⟨rfl, hedge1, rfl, ?_⟩
    rw [validPathB_cons]
    exact ⟨rfl, hedge2, rfl, validPathB_nil.mpr rfl⟩
  · have hS : hasKey starDB "S" = true := by decide
    have hE : hasKey starDB "E" = true := by decide
    have hv0 : getKey (setKey ([] : VisitMap) "S" ⟨0, none, none⟩) "S" =
        some ⟨0, none, none⟩ := rfl
    have hscan : bfsScan "S" "E" none false "S" starEdges
        (setKey [] "S" ⟨0, none, none⟩) [] = ScanOut.ret TravOut.blocked := by
      apply bscan_blocks
      · exact ⟨⟨0, none, none⟩, hv0⟩
      · intro r hr
        obtain ⟨i, hi⟩ := starEdges_mem hr
        subst hi
        refine ⟨rfl, ?_, leafName_ne_E i⟩
        simp [hasKey, setKey, getKey, (leafName_ne_S i).symm]
      · exact starEdges_dsts_nodup
      · rw [starEdges_len]
        decide
      · decide
    have hloop : bfsLoop starDB "S" "E" none false (dbFuel starDB) ["S"]
        (setKey [] "S" ⟨0, none, none⟩) = TravOut.blocked := by
      obtain ⟨n, hn⟩ : ∃ n, dbFuel starDB = n + 1 :=
        ⟨relCount starDB + 1, by unfold dbFuel; omega⟩
      rw [hn]
      exact bfsLoop_step starDB "S" "E" none false n "S" [] (setKey [] "S" ⟨0, none, none⟩)
        starEdges TravOut.blocked starDB_S_rels hscan
    rw [traverse_eq_bfs starDB "S" "E" none hS hE]
    exact hloop
